import Mathlib

/-!
# Verification of `music-drive.py`

A shallow embedding of the music-library synchronization tool in
`src/music-drive.py`, together with proofs about its filter resolution,
library-index lookup, reconciliation loop, and pruning step.

Modelling conventions:
* Paths and other Python strings are modelled as `List Char` (the character
  sequence of the Python string).
* File contents are modelled as `List Nat` (byte sequences); `os.stat`'s
  `st_size` is the length of the content.
* The filesystem is a list of entries (path, directory flag, content, mtime);
  `os.path.exists` is membership by path, lookups take the first entry with a
  matching path.  Entries are prepended when files or directories are created.
* The sqlite `LibraryFiles` table is a list of rows in rowid (insertion)
  order; `INSERT` appends, `DELETE ... WHERE rowid = ?` removes the row.
* `sha1` content hashing is an external primitive; definitions are
  parameterized by an arbitrary digest function `hash : List Nat → List Char`.
* Python exceptions that escape a function are modelled with `Except`;
  an I/O error raised by `shutil.copy2` is modelled by a caller-supplied set
  `failing` of destination paths whose copy raises.
-/

namespace MusicDrive

/-- A Python string (in particular a filesystem path), as its character list. -/
abbrev Path := List Char

/-- A filesystem entry: its absolute path, whether it is a directory, its
content bytes, and its modification time. -/
structure Entry where
  path : Path
  isDir : Bool
  content : List Nat
  mtime : Int
deriving DecidableEq, Repr

/-- The filesystem: a list of entries.  Freshly created entries are prepended. -/
abbrev FS := List Entry

/-- A row of the sqlite `LibraryFiles` table: `(path, sha1, size, mtime)`. -/
structure Row where
  path : Path
  sha1 : List Char
  size : Nat
  mtime : Int
deriving DecidableEq, Repr

/-- First filesystem entry with the given path (how `open`/`os.stat` resolve a
path in this model). -/
def fsFind (fs : FS) (p : Path) : Option Entry :=
  match fs with
  | [] => none
  | e :: rest => if e.path = p then some e else fsFind rest p

/-- `os.path.exists`. -/
def path_exists (fs : FS) (p : Path) : Bool :=
  (fsFind fs p).isSome

/-- Remove every entry with the given path (used to model deleting a file
between runs). -/
def fsRemove (fs : FS) (p : Path) : FS :=
  match fs with
  | [] => []
  | e :: rest => if e.path = p then fsRemove rest p else e :: fsRemove rest p

/-- Boolean string-prefix test (`str.startswith` on character lists). -/
def strPrefix : Path → Path → Bool
  | [], _ => true
  | _ :: _, [] => false
  | a :: as, b :: bs => a = b && strPrefix as bs

/-- Split a path on `'/'` (as Python's `path.split('/')`). -/
def splitPath : Path → List (List Char)
  | [] => [[]]
  | c :: rest =>
    if c = '/' then [] :: splitPath rest
    else
      match splitPath rest with
      | [] => [[c]]
      | g :: gs => (c :: g) :: gs

/-- Join path components with `'/'` (inverse of `splitPath`). -/
def joinComponents : List (List Char) → List Char
  | [] => []
  | [c] => c
  | c :: cs => c ++ '/' :: joinComponents cs

/-- Longest common prefix of two component lists. -/
def commonComponents : List (List Char) → List (List Char) → List (List Char)
  | a :: as, b :: bs => if a = b then a :: commonComponents as bs else []
  | _, _ => []

/-- `os.path.commonpath([a, b])`: the paths are split on `'/'` and compared
component-wise; the common components are joined back.  (CPython additionally
drops empty and `'.'` components; for the normalized absolute paths handled
here the two computations coincide.) -/
def commonpath (a b : Path) : Path :=
  joinComponents (commonComponents (splitPath a) (splitPath b))

/-- `os.path.join(a, b)` for POSIX paths. -/
def path_join (a b : Path) : Path :=
  match b with
  | '/' :: _ => b
  | _ => if a = [] then b
         else if a.getLast? = some '/' then a ++ b
         else a ++ '/' :: b

/-- `os.path.basename`: the part after the last `'/'`. -/
def lastD : List (List Char) → List Char
  | [] => []
  | [x] => x
  | _ :: xs => lastD xs

/-- `os.path.basename p`. -/
def basename (p : Path) : Path :=
  lastD (splitPath p)

/-- `os.path.dirname p`: everything up to the last `'/'`, with trailing
slashes stripped unless the head is all slashes. -/
def dirname (p : Path) : Path :=
  let head := (p.reverse.dropWhile (fun c => ¬ c = '/')).reverse
  if head.all (fun c => c = '/') then head
  else (head.reverse.dropWhile (fun c => c = '/')).reverse

/-- Core of `os.path.splitext` on a basename with leading dots removed:
split at the last `'.'`. -/
def splitextCore : List Char → List Char × List Char
  | [] => ([], [])
  | c :: cs =>
    let p := splitextCore cs
    if c = '.' ∧ p.2 = [] then ([], c :: cs)
    else (c :: p.1, p.2)

/-- `os.path.splitext` applied to a basename: the extension starts at the last
dot, but a run of leading dots never starts an extension. -/
def splitext (b : List Char) : List Char × List Char :=
  let lead := b.takeWhile (fun c => c = '.')
  let rest := b.drop lead.length
  let p := splitextCore rest
  (lead ++ p.1, p.2)

/-- Python's `str.strip()` whitespace set (the characters relevant to text
lines). -/
def isSpaceChar (c : Char) : Bool :=
  c = ' ' ∨ c = '\t' ∨ c = '\n' ∨ c = '\r'

/-- Python's `line.strip()`. -/
def strip (s : Path) : Path :=
  ((s.dropWhile isSpaceChar).reverse.dropWhile isSpaceChar).reverse

/-- `partial_fname.startswith('/')` handling in `main`: strip one leading
slash. -/
def strip_leading_slash : Path → Path
  | '/' :: rest => rest
  | p => p

/-- Glob pattern matching as used by `glob.iglob(pattern, recursive=True)` on
the include-file patterns: literal characters must match and `'*'` matches any
(possibly empty) sequence of characters.  (The recursive `'**'` form is
subsumed: consecutive stars also match across `'/'`.  Character classes and
`'?'` are not used by this program's patterns and are not modelled; neither is
CPython glob's hidden-name rule — wildcards never matching dot-prefixed
segments — which is immaterial to the filter claims but is modelled
explicitly for the prune walk, see `globVisits`.) -/
def globMatch : List Char → List Char → Bool
  | [], s => s.isEmpty
  | '*' :: ps, s => s.tails.any (fun t => globMatch ps t)
  | _ :: _, [] => false
  | p :: ps, c :: s => p = c && globMatch ps s

/-! ## FilterEngine (`class Filter`, `gen_input_files`) -/

/-- The compiled form of one rule line (`class Filter`): a leading `'!'`
negates, the rest is joined with the library root into a glob pattern, and
`self.items` is the set of paths that the glob expands to **at construction
time** — `glob.iglob` only returns paths that exist on disk, so `items` is the
snapshot of on-disk paths matching the pattern. -/
structure Filter where
  is_negative : Bool
  glob : Path
  items : List Path
deriving DecidableEq, Repr

/-- `Filter.__init__(s, root)`, evaluated against filesystem `fs`. -/
def Filter.build (s : Path) (root : Path) (fs : FS) : Filter :=
  let neg := strPrefix ['!'] s
  let s' := if neg then s.drop 1 else s
  let g := path_join root s'
  { is_negative := neg
    glob := g
    items := (fs.map (fun e => e.path)).filter (fun p => globMatch g p) }

/-- `Filter.should_include`: membership in the construction-time snapshot;
`none` means "no information". -/
def Filter.should_include (f : Filter) (fname : Path) : Option Bool :=
  if fname ∈ f.items then some (! f.is_negative) else none

/-- The inner `for filt in filters` loop of `gen_input_files`: the first
filter returning a decision wins; if all return `None` the file is excluded. -/
def filters_decide : List Filter → Path → Bool
  | [], _ => false
  | f :: rest, fname =>
    match f.should_include fname with
    | some true => true
    | some false => false
    | none => filters_decide rest fname

/-- The recursive walk `glob.iglob(os.path.join(library, '**'))`: every
filesystem entry under the library root, in filesystem order. -/
def walk (fs : FS) (library : Path) : List Path :=
  (fs.filter (fun e => strPrefix (library ++ ['/']) e.path)).map (fun e => e.path)

/-- `gen_input_files(filters, library)`: the walked paths that the filter
list decides to include. -/
def gen_input_files (filters : List Filter) (fs : FS) (library : Path) : List Path :=
  (walk fs library).filter (fun fname => filters_decide filters fname)

/-- The filter-loading loop in `main`: every line of the include file is
stripped and compiled into a `Filter` (there is no blank-line, comment or
field validation in the source). -/
def load_filters (fs : FS) (library : Path) (lines : List Path) : List Filter :=
  lines.map (fun line => Filter.build (strip line) library fs)

/-! ## LibraryIndex (`find_library_files_by_size`, `find_library_file_by_hash`,
`gen_input_rows`) -/

/-- `find_library_files_by_size`: all rows with the given size, in rowid
order. -/
def find_library_files_by_size (db : List Row) (size : Nat) : List Row :=
  db.filter (fun r => decide (r.size = size))

/-- `find_library_file_by_hash(db, sha1)`: scan rows in rowid order; the first
row with matching hash whose path exists on disk is returned; matching rows
whose paths no longer exist are deleted from the table along the way.  Returns
the found row (if any) together with the table after the deletions. -/
def find_library_file_by_hash (fs : FS) (h : List Char) : List Row → Option Row × List Row
  | [] => (none, [])
  | r :: rest =>
    if r.sha1 = h then
      if path_exists fs r.path then (some r, r :: rest)
      else find_library_file_by_hash fs h rest
    else
      let p := find_library_file_by_hash fs h rest
      (p.1, r :: p.2)

/-- Specification-side definition (for comparison with
`find_library_file_by_hash`), following the spec's words: the canonical record
for a content hash is the first record in persisted insertion order with that
hash whose path exists on disk. -/
def canonical_record_spec (fs : FS) (h : List Char) : List Row → Option Row
  | [] => none
  | r :: rest =>
    if r.sha1 = h ∧ path_exists fs r.path = true then some r
    else canonical_record_spec fs h rest

/-- One step of the generator `gen_input_rows` for a single walked `fname`:
stat the file, insert a `(path, hash, size, mtime)` row **iff no row with the
same size exists**, then resolve the canonical row by content hash.
`none` models an uncaught exception: `os.stat`/`open` failing (missing path or
directory), or the `assert row` failing.  `hash_file`'s digest is the hash of
the file's content bytes (the `lru_cache` only affects how often the file is
read; see `hash_file` below). -/
def resolve_row (hash : List Nat → List Char) (fs : FS) (db : List Row)
    (fname : Path) : Option (Row × List Row) :=
  match fsFind fs fname with
  | none => none
  | some e =>
    if e.isDir then none
    else
      let size := e.content.length
      let h := hash e.content
      let db1 := if (find_library_files_by_size db size).isEmpty
        then db ++ [⟨fname, h, size, e.mtime⟩] else db
      match find_library_file_by_hash fs h db1 with
      | (none, _) => none
      | (some row, db2) => some (row, db2)

/-! ## HashCache (`@lru_cache(maxsize=128) def hash_file`) -/

/-- The state of `hash_file`'s `functools.lru_cache(maxsize=128)`: cached
`(path, digest)` pairs in most-recently-used-first order, plus a counter of
how many times a file's bytes were actually read (i.e. how often the function
body ran). -/
structure HashState where
  cache : List (Path × List Char)
  reads : Nat
deriving DecidableEq, Repr

/-- Look a path up in the cache. -/
def lookup_cache : List (Path × List Char) → Path → Option (List Char)
  | [], _ => none
  | (p, d) :: rest, fname => if p = fname then some d else lookup_cache rest fname

/-- Remove a path's entry from the cache (used when a hit moves it to the
front). -/
def drop_cache : List (Path × List Char) → Path → List (Path × List Char)
  | [], _ => []
  | (p, d) :: rest, fname =>
    if p = fname then drop_cache rest fname else (p, d) :: drop_cache rest fname

/-- `hash_file(fname)` through its LRU cache: a hit returns the cached digest
and moves the entry to most-recently-used; a miss reads and hashes the file's
bytes (`reads + 1`), stores the digest, and evicts the least-recently-used
entry beyond `maxsize = 128`.  `none` models `open` raising (missing file or
directory); exceptions are not cached. -/
def hash_file (hash : List Nat → List Char) (fs : FS) (st : HashState)
    (fname : Path) : Option (List Char) × HashState :=
  match lookup_cache st.cache fname with
  | some d => (some d, ⟨(fname, d) :: drop_cache st.cache fname, st.reads⟩)
  | none =>
    match fsFind fs fname with
    | none => (none, st)
    | some e =>
      if e.isDir then (none, st)
      else
        let d := hash e.content
        (some d, ⟨((fname, d) :: st.cache).take 128, st.reads + 1⟩)

/-- A sequence of `hash_file` calls within one run, threading the cache. -/
def run_hash_calls (hash : List Nat → List Char) (fs : FS) :
    List Path → HashState → HashState
  | [], st => st
  | f :: rest, st => run_hash_calls hash fs rest (hash_file hash fs st f).2

/-! ## ReconciliationEngine (`copy_file`, the loop in `main`) -/

/-- `os.makedirs(d, exist_ok=True)`, tracking only the leaf directory entry
(intermediate directories play no further role).  `os.makedirs('')` does not
arise for the destinations built by `main` (they always contain a slash). -/
def makedirs (fs : FS) (d : Path) : FS :=
  if d = [] then fs
  else if path_exists fs d then fs
  else ⟨d, true, [], 0⟩ :: fs

/-- `copy_file(input_fname, out_fname)`: create the destination's parent
directory, skip if the destination already exists, otherwise copy content and
metadata (`shutil.copy2`).  The boolean reports whether a copy was performed.
A destination in `failing` makes `shutil.copy2` raise, modelled as
`Except.error`; so does a vanished source.  No exception is handled here or in
`main`'s loop. -/
def copy_file (failing : List Path) (fs : FS) (input_fname out_fname : Path) :
    Except Path (FS × Bool) :=
  let fs0 := makedirs fs (dirname out_fname)
  if path_exists fs0 out_fname then .ok (fs0, false)
  else if out_fname ∈ failing then .error out_fname
  else
    match fsFind fs0 input_fname with
    | some e => .ok (⟨out_fname, false, e.content, e.mtime⟩ :: fs0, true)
    | none => .error out_fname

/-- The organized destination computed in `main`'s loop:
`organized / (row.path with the common prefix with the library stripped)`. -/
def dest_org (library organized : Path) (row : Row) : Path :=
  path_join organized
    (strip_leading_slash (row.path.drop (commonpath library row.path).length))

/-- The shuffled destination computed in `main`'s loop:
`shuffled / f'{stem} - {row.sha1[:8]}{ext}'` of the canonical row's
basename. -/
def dest_shuf (shuffled : Path) (row : Row) : Path :=
  let sp := splitext (basename row.path)
  path_join shuffled (sp.1 ++ (' ' :: '-' :: ' ' :: []) ++ row.sha1.take 8 ++ sp.2)

/-- The per-run mutable state of `main`: the filesystem, the `LibraryFiles`
table, the accumulated `included_files` destination set (as the list of
recorded paths; membership is what the set is used for), and the number of
copy operations performed. -/
structure RunState where
  fs : FS
  db : List Row
  included : List Path
  copies : Nat
deriving DecidableEq, Repr

/-- One iteration of `main`'s reconciliation loop for a walked `fname`:
resolve the canonical row, copy it to the organized destination, then to the
shuffled destination, recording both destinations.  Any uncaught exception
(`.error` / failed resolution) aborts the whole computation, as in Python. -/
def process_one (hash : List Nat → List Char) (failing : List Path)
    (library organized shuffled : Path) (st : RunState) (fname : Path) :
    Except Path RunState :=
  match resolve_row hash st.fs st.db fname with
  | none => .error fname
  | some (row, db2) =>
    let out1 := dest_org library organized row
    match copy_file failing st.fs row.path out1 with
    | .error e => .error e
    | .ok (fs1, b1) =>
      let out2 := dest_shuf shuffled row
      match copy_file failing fs1 row.path out2 with
      | .error e => .error e
      | .ok (fs2, b2) =>
        .ok ⟨fs2, db2, st.included ++ [out1, out2],
             st.copies + (cond b1 1 0) + (cond b2 1 0)⟩

/-- `main`'s reconciliation loop over the stream of included files. -/
def run_loop (hash : List Nat → List Char) (failing : List Path)
    (library organized shuffled : Path) :
    List Path → RunState → Except Path RunState
  | [], st => .ok st
  | fname :: rest, st =>
    match process_one hash failing library organized shuffled st fname with
    | .error e => .error e
    | .ok st' => run_loop hash failing library organized shuffled rest st'

/-! ## PruneEngine (the `--delete-excluded-files` block in `main`) -/

/-- Is `p` strictly under the directory `root`? -/
def underRoot (root p : Path) : Bool :=
  strPrefix (root ++ ['/']) p

/-- A path segment is hidden when it begins with a dot. -/
def hiddenSeg : List Char → Bool
  | '.' :: _ => true
  | _ => false

/-- Does `glob.iglob(os.path.join(root, '**'), recursive=True)` list the path
`p`?  The path must lie under `root`, and — because CPython glob's wildcards
never match hidden names and `'**'` never descends into hidden directories —
no path segment below the root may be dot-prefixed. -/
def globVisits (root p : Path) : Bool :=
  underRoot root p &&
    (splitPath (p.drop (root.length + 1))).all (fun seg => ! hiddenSeg seg)

/-- The pruning pass of `main`: walk both destination roots with
`glob.iglob(root + '/**', recursive=True)`; every regular file the walk lists
that is not recorded in `included_files` is unlinked; directories are
skipped, and hidden files (a dot-prefixed name, or anything inside a hidden
directory) are never listed by the walk, hence never touched. -/
def delete_excluded_files (included : List Path) (organized shuffled : Path) :
    FS → FS
  | [] => []
  | e :: rest =>
    if e.isDir = false ∧ (globVisits organized e.path = true ∨ globVisits shuffled e.path = true)
        ∧ ¬ e.path ∈ included then
      delete_excluded_files included organized shuffled rest
    else
      e :: delete_excluded_files included organized shuffled rest

/-- `main(library, include_fname, db_fname, organized, shuffled,
delete_excluded_files)`: create the destination directories, compile the
filters against the current filesystem, walk and filter the library, run the
reconciliation loop, and optionally prune.  The include-file's lines and the
database contents are passed in (reading them is external I/O); `hash` is the
sha1 digest primitive and `failing` the destinations whose copy raises. -/
def main_run (hash : List Nat → List Char) (failing : List Path)
    (library organized shuffled : Path) (lines : List Path)
    (delete_excluded : Bool) (fs : FS) (db : List Row) : Except Path RunState :=
  let fs1 := makedirs (makedirs fs organized) shuffled
  let filters := load_filters fs1 library lines
  let fnames := gen_input_files filters fs1 library
  match run_loop hash failing library organized shuffled fnames ⟨fs1, db, [], 0⟩ with
  | .error e => .error e
  | .ok st =>
    if delete_excluded then
      .ok ⟨delete_excluded_files st.included organized shuffled st.fs,
           st.db, st.included, st.copies⟩
    else .ok st

/-! ## Basic lemmas about the filesystem model -/

instance {ε α : Type} [DecidableEq ε] [DecidableEq α] : DecidableEq (Except ε α) :=
  fun a b =>
    match a, b with
    | .error e, .error f =>
      if h : e = f then .isTrue (by rw [h])
      else .isFalse (fun hc => h (Except.error.inj hc))
    | .error _, .ok _ => .isFalse (fun hc => Except.noConfusion hc)
    | .ok _, .error _ => .isFalse (fun hc => Except.noConfusion hc)
    | .ok x, .ok y =>
      if h : x = y then .isTrue (by rw [h])
      else .isFalse (fun hc => h (Except.ok.inj hc))

theorem path_exists_iff (fs : FS) (p : Path) :
    path_exists fs p = true ↔ ∃ e ∈ fs, e.path = p := by
  induction fs with
  | nil => simp [path_exists, fsFind]
  | cons e rest ih =>
    by_cases h : e.path = p
    · simp only [path_exists, fsFind, if_pos h, Option.isSome_some, true_iff]
      exact ⟨e, List.mem_cons_self _ _, h⟩
    · simp only [path_exists, fsFind, if_neg h] at *
      rw [ih]
      constructor
      · rintro ⟨x, hx, hxp⟩; exact ⟨x, List.mem_cons_of_mem _ hx, hxp⟩
      · rintro ⟨x, hx, hxp⟩
        rcases List.mem_cons.mp hx with rfl | hx
        · exact absurd hxp h
        · exact ⟨x, hx, hxp⟩

theorem path_exists_mono {fs : FS} (new : FS) {p : Path}
    (h : path_exists fs p = true) : path_exists (new ++ fs) p = true := by
  rw [path_exists_iff] at h ⊢
  rcases h with ⟨e, he, hep⟩
  exact ⟨e, List.mem_append_right _ he, hep⟩

theorem fsFind_append_of_not_mem {new fs : FS} {p : Path}
    (h : ∀ e ∈ new, e.path ≠ p) : fsFind (new ++ fs) p = fsFind fs p := by
  induction new with
  | nil => rfl
  | cons e rest ih =>
    have : e.path ≠ p := h e (List.mem_cons_self _ _)
    simp only [List.cons_append, fsFind, if_neg this]
    exact ih (fun x hx => h x (List.mem_cons_of_mem _ hx))

theorem makedirs_shape (fs : FS) (d : Path) :
    makedirs fs d = fs ∨ makedirs fs d = ⟨d, true, [], 0⟩ :: fs := by
  unfold makedirs
  by_cases h1 : d = []
  · simp [h1]
  · by_cases h2 : path_exists fs d
    · simp [h1, h2]
    · simp [h1, h2]

theorem makedirs_noop {fs : FS} {d : Path}
    (h : d = [] ∨ path_exists fs d = true) : makedirs fs d = fs := by
  unfold makedirs
  rcases h with h | h
  · simp [h]
  · by_cases h1 : d = [] <;> simp [h1, h]

theorem path_exists_makedirs_self (fs : FS) (d : Path) (hd : d ≠ []) :
    path_exists (makedirs fs d) d = true := by
  unfold makedirs
  by_cases h2 : path_exists fs d
  · simp [hd, h2]
  · simp only [if_neg hd, h2, Bool.false_eq_true, if_false]
    simp [path_exists, fsFind]

theorem path_exists_makedirs_mono {fs : FS} {p : Path} (d : Path)
    (h : path_exists fs p = true) : path_exists (makedirs fs d) p = true := by
  rcases makedirs_shape fs d with hs | hs <;> rw [hs]
  · exact h
  · exact path_exists_mono [⟨d, true, [], 0⟩] h

/-! ## Basic lemmas about string prefixes -/

theorem strPrefix_iff (a b : Path) : strPrefix a b = true ↔ ∃ t, b = a ++ t := by
  induction a generalizing b with
  | nil => simp [strPrefix]
  | cons c cs ih =>
    cases b with
    | nil =>
      simp only [strPrefix, Bool.false_eq_true, false_iff]
      rintro ⟨t, ht⟩; simp at ht
    | cons d ds =>
      simp only [strPrefix, Bool.and_eq_true, decide_eq_true_eq, ih]
      constructor
      · rintro ⟨rfl, t, rfl⟩; exact ⟨t, rfl⟩
      · rintro ⟨t, ht⟩
        injection ht with h1 h2
        exact ⟨h1.symm ▸ rfl, t, h2⟩

theorem strPrefix_append (a t : Path) : strPrefix a (a ++ t) = true :=
  (strPrefix_iff a (a ++ t)).mpr ⟨t, rfl⟩

theorem strPrefix_trans {a b c : Path} (h1 : strPrefix a b = true)
    (h2 : strPrefix b c = true) : strPrefix a c = true := by
  rw [strPrefix_iff] at h1 h2 ⊢
  rcases h1 with ⟨t1, rfl⟩
  rcases h2 with ⟨t2, rfl⟩
  exact ⟨t1 ++ t2, by simp⟩

/-! ## C2: filter precedence -/

theorem mem_items_path_exists (f : Filter) (s root : Path) (fs : FS)
    (hf : f = Filter.build s root fs) :
    ∀ q ∈ f.items, path_exists fs q = true := by
  intro q hq
  subst hf
  simp only [Filter.build, List.mem_filter, List.mem_map] at hq
  rcases hq.1 with ⟨e, he, rfl⟩
  exact (path_exists_iff fs e.path).mpr ⟨e, he, rfl⟩

/-- C2: filter rules are evaluated in list order; the first rule whose pattern
matches the candidate path decides the outcome — a positive match includes the
file (the path passes `gen_input_files`), a negated match excludes it without
consulting later rules, and if no rule matches the file is excluded by
default. -/
theorem C2_filter_precedence (pre post : List Filter) (f : Filter)
    (fname : Path) (b : Bool)
    (hpre : ∀ g ∈ pre, g.should_include fname = none) :
    (f.should_include fname = some b →
        filters_decide (pre ++ f :: post) fname = b) ∧
    filters_decide pre fname = false ∧
    (∀ (filters : List Filter) (fs : FS) (library : Path),
      fname ∈ walk fs library →
      (fname ∈ gen_input_files filters fs library ↔
        filters_decide filters fname = true)) := by
  refine ⟨?_, ?_, ?_⟩
  · intro hf
    induction pre with
    | nil =>
      simp only [List.nil_append, filters_decide, hf]
      cases b <;> rfl
    | cons g rest ih =>
      have hg : g.should_include fname = none := hpre g (List.mem_cons_self _ _)
      simp only [List.cons_append, filters_decide, hg]
      exact ih (fun x hx => hpre x (List.mem_cons_of_mem _ hx))
  · induction pre with
    | nil => rfl
    | cons g rest ih =>
      have hg : g.should_include fname = none := hpre g (List.mem_cons_self _ _)
      simp only [filters_decide, hg]
      exact ih (fun x hx => hpre x (List.mem_cons_of_mem _ hx))
  · intro filters fs library hw
    simp [gen_input_files, List.mem_filter, hw]

/-- Witness for C2 on concrete rules `[A, !B, C]`: a path matched by both `A`
and `B` is included because `A` comes first; with `[!B, C]` the same path is
excluded by `!B` even though `C` would match; a path matching no rule is
excluded. -/
theorem C2_filter_precedence_witness :
    (filters_decide
        [⟨false, "l/A*".data, ["l/AB".data]⟩, ⟨true, "l/*B".data, ["l/AB".data]⟩,
         ⟨false, "l/*".data, ["l/AB".data]⟩] "l/AB".data = true) ∧
    (filters_decide
        [⟨true, "l/*B".data, ["l/AB".data]⟩, ⟨false, "l/*".data, ["l/AB".data]⟩]
        "l/AB".data = false) ∧
    (filters_decide [⟨false, "l/C*".data, ["l/C".data]⟩] "l/AB".data = false) := by
  refine ⟨?_, ?_, ?_⟩
  · have h := C2_filter_precedence []
      [⟨true, "l/*B".data, ["l/AB".data]⟩, ⟨false, "l/*".data, ["l/AB".data]⟩]
      ⟨false, "l/A*".data, ["l/AB".data]⟩ "l/AB".data true (by intro g hg; simp at hg)
    exact h.1 (by decide)
  · have h := C2_filter_precedence [] [⟨false, "l/*".data, ["l/AB".data]⟩]
      ⟨true, "l/*B".data, ["l/AB".data]⟩ "l/AB".data false (by intro g hg; simp at hg)
    exact h.1 (by decide)
  · have h := C2_filter_precedence [⟨false, "l/C*".data, ["l/C".data]⟩] []
      ⟨false, "l/C*".data, ["l/C".data]⟩ "l/AB".data false
      (by intro g hg; simp at hg; subst hg; decide)
    exact h.2.1

/-! ## C10: filter matching is snapshot membership -/

/-- C10: a `Filter`'s match set is fixed at construction time by expanding its
glob against the filesystem; every member of `items` existed on disk at
construction, and a path that did not exist then gets no decision (`none`)
from `should_include`, even if the pattern textually matches it. -/
theorem C10_filter_snapshot (s root : Path) (fs : FS) (p : Path)
    (h : path_exists fs p = false) :
    (Filter.build s root fs).should_include p = none ∧
    ∀ q ∈ (Filter.build s root fs).items, path_exists fs q = true := by
  constructor
  · unfold Filter.should_include
    rw [if_neg]
    intro hp
    have := mem_items_path_exists _ s root fs rfl p hp
    rw [h] at this
    exact Bool.false_ne_true this
  · exact mem_items_path_exists _ s root fs rfl

/-- Witness for C10: the pattern `r/*` textually matches `r/x`
(`globMatch` is `true`), but on an empty filesystem the snapshot is empty, so
`should_include` gives no decision. -/
theorem C10_filter_snapshot_witness :
    globMatch (Filter.build "*".data "r".data []).glob "r/x".data = true ∧
    (Filter.build "*".data "r".data []).should_include "r/x".data = none := by
  refine ⟨by decide, ?_⟩
  exact (C10_filter_snapshot "*".data "r".data [] "r/x".data (by decide)).1

/-! ## C8: rule-file parsing (corrected) -/

/-- C8 counterexample: `main` performs no rule-line validation.  A `'#'`
comment line, a blank line and a line with three tab-separated fields are all
compiled into filters (three filters from three lines) instead of being
skipped or raising a `ConfigError`; the comment line's text becomes a literal
glob pattern. -/
theorem C8_counterexample :
    (load_filters [] "L".data
        ["# comment".data, "".data, "a\tboth\textra".data]).length = 3 ∧
    (load_filters [] "L".data ["# comment".data]).map (fun f => f.glob)
      = [['L', '/', '#', ' ', 'c', 'o', 'm', 'm', 'e', 'n', 't']] := by
  decide

/-- C8 (amended): when `main` reads the rule file, every line is stripped of
surrounding whitespace and compiled into a `Filter` as-is — blank lines and
`'#'` lines included; tab characters are not field separators, there is no
mode token, and no `ConfigError` exists: the only syntax is an optional
leading `'!'` for negation. -/
theorem C8_no_rule_validation (fs : FS) (library : Path) (lines : List Path) :
    (load_filters fs library lines).length = lines.length ∧
    (∀ f ∈ load_filters fs library lines,
        ∃ line ∈ lines, f = Filter.build (strip line) library fs) ∧
    (∀ c : List Char,
        (Filter.build ('#' :: c) library fs).is_negative = false ∧
        (Filter.build ('#' :: c) library fs).glob = path_join library ('#' :: c)) := by
  refine ⟨by simp [load_filters], ?_, ?_⟩
  · intro f hf
    simp only [load_filters, List.mem_map] at hf
    rcases hf with ⟨line, hline, rfl⟩
    exact ⟨line, hline, rfl⟩
  · intro c
    exact ⟨rfl, rfl⟩

/-- Witness for C8 (amended): a comment line and an ordinary line both compile
into filters — two filters from two lines. -/
theorem C8_no_rule_validation_witness :
    (load_filters [] "L".data ["a".data, "# b".data]).length = 2 := by
  exact (C8_no_rule_validation [] "L".data ["a".data, "# b".data]).1

/-! ## C4: the insertion condition (code bug) -/

/-- C4: the claim (and the code's own `assert row`) fail.  The library holds
`l/a` (content `[1]`) and `l/b` (content `[2]`), both of size 1.  Resolving
`l/a` against an empty table inserts its row.  The table then has no record
with path `l/b`, so by the claim resolving `l/b` should insert one — but the
code only checks for **same-size** records, finds `l/a`'s row, skips the
insert, and the subsequent lookup of `l/b`'s hash finds nothing:
`resolve_row` is `none`, i.e. `gen_input_rows`'s `assert row` raises. -/
theorem C4_size_collision_assert_failure :
    (resolve_row (fun c => if c = [1] then "h1".data else "h2".data)
        [⟨"l/a".data, false, [1], 0⟩, ⟨"l/b".data, false, [2], 0⟩]
        [] "l/a".data
      = some (⟨"l/a".data, "h1".data, 1, 0⟩, [⟨"l/a".data, "h1".data, 1, 0⟩])) ∧
    (([⟨"l/a".data, "h1".data, 1, 0⟩] : List Row).all
        (fun r => decide (r.path ≠ "l/b".data)) = true) ∧
    ((find_library_files_by_size [⟨"l/a".data, "h1".data, 1, 0⟩] 1).isEmpty
      = false) ∧
    (resolve_row (fun c => if c = [1] then "h1".data else "h2".data)
        [⟨"l/a".data, false, [1], 0⟩, ⟨"l/b".data, false, [2], 0⟩]
        [⟨"l/a".data, "h1".data, 1, 0⟩] "l/b".data
      = none) := by
  decide

/-! ## C9: copy errors are not recovered (corrected) -/

/-- C9 counterexample: with two library files and a destination whose copy
raises (`o/a.mp3`), the whole run aborts with that error — the second file is
never processed, contradicting "skip this file, log, continue with the
rest". -/
theorem C9_copy_error_counterexample :
    main_run (fun c => if c = [1] then "aabbccddee".data else "ffgghhiijj".data)
        ["o/a.mp3".data]
        "l".data "o".data "s".data ["*".data] false
        [⟨"l/a.mp3".data, false, [1], 5⟩, ⟨"l/b.mp3".data, false, [2, 3], 7⟩]
        [] = .error "o/a.mp3".data := by
  decide

/-- C9 (amended): an I/O failure while copying a single file is not handled
anywhere — neither `copy_file` nor `main`'s loop catches it, so the exception
propagates and aborts the run; the remaining candidate files are not
processed. -/
theorem C9_copy_error_aborts (hash : List Nat → List Char) (failing : List Path)
    (library organized shuffled : Path) (st : RunState) (fname : Path)
    (rest : List Path) (e : Path)
    (h : process_one hash failing library organized shuffled st fname = .error e) :
    run_loop hash failing library organized shuffled (fname :: rest) st
      = .error e := by
  simp [run_loop, h]

/-- Witness for C9 (amended): the failing copy of the concrete run above
aborts the loop regardless of the files still pending. -/
theorem C9_copy_error_aborts_witness :
    run_loop (fun c => if c = [1] then "aabbccddee".data else "ffgghhiijj".data)
        ["o/a.mp3".data] "l".data "o".data "s".data
        ["l/a.mp3".data, "l/b.mp3".data]
        ⟨[⟨"l/a.mp3".data, false, [1], 5⟩, ⟨"l/b.mp3".data, false, [2, 3], 7⟩],
         [], [], 0⟩
      = .error "o/a.mp3".data := by
  exact C9_copy_error_aborts _ _ _ _ _ _ _ _ _ (by decide)

/-! ## C7: hash memoization is LRU-bounded (corrected) -/

/-- The 128 distractor paths used to evict `a` from the LRU cache. -/
def c7others : List Path := (List.range 128).map (fun i => [Char.ofNat (256 + i)])

/-- A filesystem holding `a` and the 128 distractor files. -/
def c7fs : FS :=
  ⟨"a".data, false, [0], 0⟩ :: c7others.map (fun p => ⟨p, false, [0], 0⟩)

set_option maxRecDepth 100000

/-- C7 counterexample: the cache is `lru_cache(maxsize=128)`, not a cache "for
the lifetime of the run".  Hashing `a`, then 128 other distinct paths,
performs 129 reads and evicts `a`; the second call to `hash_file` for `a`
re-reads the file's bytes (read number 130), contradicting the claim. -/
theorem C7_lru_eviction_counterexample :
    (run_hash_calls (fun _ => []) c7fs ("a".data :: c7others) ⟨[], 0⟩).reads
        = 129 ∧
    (hash_file (fun _ => []) c7fs
        (run_hash_calls (fun _ => []) c7fs ("a".data :: c7others) ⟨[], 0⟩)
        "a".data).2.reads = 130 ∧
    c7others.length = 128 ∧ ("a".data ∉ c7others) := by
  refine ⟨by decide, by decide, by decide, by decide⟩

theorem lookup_cache_head (fname : Path) (d : List Char)
    (rest : List (Path × List Char)) :
    lookup_cache ((fname, d) :: rest) fname = some d := by
  simp [lookup_cache]

/-- C7 (amended): `hash_file` is memoized by an LRU cache of maximum size 128
keyed by the path.  A successful call leaves the digest at the front of the
cache, so an immediately repeated call for the same path (the pattern that
occurs inside `gen_input_rows`) returns the same digest without re-reading
the file; entries may however be evicted after 128 distinct other paths. -/
theorem C7_hash_cache_repeat (hash : List Nat → List Char) (fs : FS)
    (st : HashState) (fname : Path) (d : List Char) (st1 : HashState)
    (h : hash_file hash fs st fname = (some d, st1)) :
    ∃ st2, hash_file hash fs st1 fname = (some d, st2) ∧
      st2.reads = st1.reads := by
  have hcache : ∃ c, st1.cache = (fname, d) :: c := by
    simp only [hash_file] at h
    split at h
    · injection h with h1 h2
      injection h1 with h1
      subst h1
      exact ⟨drop_cache st.cache fname, by rw [← h2]⟩
    · split at h
      · simp at h
      · split at h
        · simp at h
        · injection h with h1 h2
          injection h1 with h1
          exact ⟨st.cache.take 127, by rw [← h2, List.take_succ_cons, h1]⟩
  rcases hcache with ⟨c, hc⟩
  refine ⟨⟨(fname, d) :: drop_cache st1.cache fname, st1.reads⟩, ?_, rfl⟩
  unfold hash_file
  rw [hc, lookup_cache_head]

/-- Witness for C7 (amended): a concrete first call on a one-file filesystem,
followed by the repeated call, which does not read again. -/
theorem C7_hash_cache_repeat_witness :
    ∃ st2, hash_file (fun _ => "d".data) [⟨"a".data, false, [0], 0⟩]
        ⟨[("a".data, "d".data)], 1⟩ "a".data = (some "d".data, st2) ∧
      st2.reads = 1 := by
  have h := C7_hash_cache_repeat (fun _ => "d".data)
      [⟨"a".data, false, [0], 0⟩] ⟨[], 0⟩ "a".data "d".data
      ⟨[("a".data, "d".data)], 1⟩ (by decide)
  simpa using h

/-! ## The canonical-record invariant for `find_library_file_by_hash` -/

/-- `r` is the first row with hash `h` in the table, in rowid order. -/
def dbShape (db : List Row) (h : List Char) (r : Row) : Prop :=
  ∃ db₁ db₂, db = db₁ ++ r :: db₂ ∧ (∀ x ∈ db₁, x.sha1 ≠ h) ∧ r.sha1 = h

/-- `r` is the first row with hash `h` in the table and its path exists:
exactly the state `find_library_file_by_hash` leaves behind after returning
`r`.  From such a state the lookup returns `r` again without deleting
anything. -/
def Canon (fs : FS) (db : List Row) (h : List Char) (r : Row) : Prop :=
  dbShape db h r ∧ path_exists fs r.path = true

theorem dbShape_append {db : List Row} {h : List Char} {r : Row}
    (hs : dbShape db h r) (l : List Row) : dbShape (db ++ l) h r := by
  rcases hs with ⟨db₁, db₂, rfl, hnm, hr⟩
  exact ⟨db₁, db₂ ++ l, by simp, hnm, hr⟩

theorem find_eq_of_canon {fs : FS} {db : List Row} {h : List Char} {r : Row}
    (hc : Canon fs db h r) :
    find_library_file_by_hash fs h db = (some r, db) := by
  rcases hc with ⟨⟨db₁, db₂, rfl, hnm, hr⟩, hex⟩
  induction db₁ with
  | nil =>
    rw [List.nil_append, find_library_file_by_hash, if_pos hr, if_pos hex]
  | cons x rest ih =>
    have hx : x.sha1 ≠ h := hnm x (List.mem_cons_self _ _)
    have hrec := ih (fun y hy => hnm y (List.mem_cons_of_mem _ hy))
    rw [List.cons_append, find_library_file_by_hash, if_neg hx, hrec]

theorem find_some_canon {fs : FS} {h : List Char} :
    ∀ {db db' : List Row} {r : Row},
    find_library_file_by_hash fs h db = (some r, db') → Canon fs db' h r := by
  intro db
  induction db with
  | nil => intro db' r hf; simp [find_library_file_by_hash] at hf
  | cons x rest ih =>
    intro db' r hf
    by_cases hx : x.sha1 = h
    · by_cases hex : path_exists fs x.path
      · simp only [find_library_file_by_hash, if_pos hx, hex, if_pos rfl] at hf
        obtain ⟨h1, h2⟩ := Prod.mk.inj hf
        injection h1 with h1
        subst h1 h2
        exact ⟨⟨[], rest, rfl, by simp, hx⟩, hex⟩
      · simp only [find_library_file_by_hash, if_pos hx] at hf
        rw [if_neg (by simpa using hex)] at hf
        exact ih hf
    · rw [find_library_file_by_hash, if_neg hx] at hf
      obtain ⟨h1, h2⟩ := Prod.mk.inj hf
      have hrest : find_library_file_by_hash fs h rest
          = (some r, (find_library_file_by_hash fs h rest).2) := by
        rw [← h1]
      obtain ⟨⟨d₁, d₂, hd, hnm, hr⟩, hex⟩ := ih hrest
      refine ⟨⟨x :: d₁, d₂, ?_, ?_, hr⟩, hex⟩
      · rw [← h2]
        show x :: (find_library_file_by_hash fs h rest).2 = x :: d₁ ++ r :: d₂
        rw [hd]; rfl
      · intro y hy
        rcases List.mem_cons.mp hy with rfl | hy
        · exact hx
        · exact hnm y hy

theorem find_fst_eq_spec (fs : FS) (h : List Char) (db : List Row) :
    (find_library_file_by_hash fs h db).1 = canonical_record_spec fs h db := by
  induction db with
  | nil => rfl
  | cons x rest ih =>
    by_cases hx : x.sha1 = h
    · by_cases hex : path_exists fs x.path
      · simp [find_library_file_by_hash, canonical_record_spec, hx, hex]
      · simp only [find_library_file_by_hash, if_pos hx]
        rw [if_neg (by simpa using hex)]
        rw [canonical_record_spec, if_neg (by simp [hex])]
        exact ih
    · simp only [find_library_file_by_hash, if_neg hx]
      rw [canonical_record_spec, if_neg (by simp [hx])]
      exact ih

theorem canonical_record_spec_some {fs : FS} {h : List Char} :
    ∀ {db : List Row} {r : Row},
    canonical_record_spec fs h db = some r →
    r ∈ db ∧ r.sha1 = h ∧ path_exists fs r.path = true := by
  intro db
  induction db with
  | nil => intro r hc; simp [canonical_record_spec] at hc
  | cons x rest ih =>
    intro r hc
    by_cases hx : x.sha1 = h ∧ path_exists fs x.path = true
    · rw [canonical_record_spec, if_pos hx] at hc
      injection hc with hc
      subst hc
      exact ⟨List.mem_cons_self _ _, hx.1, hx.2⟩
    · rw [canonical_record_spec, if_neg hx] at hc
      obtain ⟨hm, hs, he⟩ := ih hc
      exact ⟨List.mem_cons_of_mem _ hm, hs, he⟩

theorem find_snd_sublist (fs : FS) (h : List Char) (db : List Row) :
    List.Sublist (find_library_file_by_hash fs h db).2 db := by
  induction db with
  | nil => simp [find_library_file_by_hash]
  | cons x rest ih =>
    by_cases hx : x.sha1 = h
    · by_cases hex : path_exists fs x.path
      · simp [find_library_file_by_hash, hx, hex]
      · simp only [find_library_file_by_hash, if_pos hx]
        rw [if_neg (by simpa using hex)]
        exact ih.cons x
    · simp only [find_library_file_by_hash, if_neg hx]
      exact ih.cons₂ x

theorem find_snd_deleted_stale (fs : FS) (h : List Char) :
    ∀ (db : List Row) (x : Row), x ∈ db →
    x ∉ (find_library_file_by_hash fs h db).2 →
    x.sha1 = h ∧ path_exists fs x.path = false := by
  intro db
  induction db with
  | nil => intro x hx; simp at hx
  | cons y rest ih =>
    intro x hx hnx
    by_cases hy : y.sha1 = h
    · by_cases hex : path_exists fs y.path
      · simp only [find_library_file_by_hash, if_pos hy, hex, if_pos rfl] at hnx
        exact absurd hx hnx
      · simp only [find_library_file_by_hash, if_pos hy] at hnx
        rw [if_neg (by simpa using hex)] at hnx
        rcases List.mem_cons.mp hx with rfl | hx
        · exact ⟨hy, by simpa using hex⟩
        · exact ih x hx hnx
    · simp only [find_library_file_by_hash, if_neg hy] at hnx
      rcases List.mem_cons.mp hx with rfl | hx
      · exact absurd (List.mem_cons_self _ _) hnx
      · exact ih x hx (fun hc => hnx (List.mem_cons_of_mem _ hc))

theorem dbShape_find_pres {h : List Char} {r : Row} (fs' : FS) (h' : List Char) :
    ∀ {db : List Row}, dbShape db h r → path_exists fs' r.path = true →
    dbShape (find_library_file_by_hash fs' h' db).2 h r := by
  rintro db ⟨db₁, db₂, rfl, hnm, hr⟩ hex
  induction db₁ with
  | nil =>
    by_cases hh : r.sha1 = h'
    · rw [List.nil_append, find_library_file_by_hash, if_pos hh, if_pos hex]
      exact ⟨[], db₂, rfl, by simp, hr⟩
    · rw [List.nil_append, find_library_file_by_hash, if_neg hh]
      exact ⟨[], (find_library_file_by_hash fs' h' db₂).2, rfl, by simp, hr⟩
  | cons x rest ih =>
    have hx : x.sha1 ≠ h := hnm x (List.mem_cons_self _ _)
    have ih' := ih (fun y hy => hnm y (List.mem_cons_of_mem _ hy))
    by_cases hxh : x.sha1 = h'
    · by_cases hxe : path_exists fs' x.path = true
      · rw [List.cons_append, find_library_file_by_hash, if_pos hxh, if_pos hxe]
        exact ⟨x :: rest, db₂, rfl, hnm, hr⟩
      · rw [List.cons_append, find_library_file_by_hash, if_pos hxh, if_neg hxe]
        exact ih'
    · rw [List.cons_append, find_library_file_by_hash, if_neg hxh]
      obtain ⟨d₁, d₂, hd, hnm', hr'⟩ := ih'
      refine ⟨x :: d₁, d₂, ?_, ?_, hr'⟩
      · show x :: (find_library_file_by_hash fs' h' (rest ++ r :: db₂)).2
          = x :: d₁ ++ r :: d₂
        rw [hd]; rfl
      · intro y hy
        rcases List.mem_cons.mp hy with rfl | hy
        · exact hx
        · exact hnm' y hy

/-- Inversion for a successful `resolve_row`: it found a regular file, and the
canonical lookup on the (possibly insert-extended) table returned the row. -/
theorem resolve_row_some {hash : List Nat → List Char} {fs : FS} {db : List Row}
    {fname : Path} {r : Row} {db' : List Row}
    (h : resolve_row hash fs db fname = some (r, db')) :
    ∃ e, fsFind fs fname = some e ∧ e.isDir = false ∧
      find_library_file_by_hash fs (hash e.content)
        (if (find_library_files_by_size db e.content.length).isEmpty
          then db ++ [⟨fname, hash e.content, e.content.length, e.mtime⟩]
          else db)
        = (some r, db') := by
  simp only [resolve_row] at h
  split at h
  · exact absurd h (by simp)
  · rename_i e he
    split at h
    · exact absurd h (by simp)
    · rename_i hdir
      split at h
      · exact absurd h (by simp)
      · rename_i row db2 hf
        injection h with h
        obtain ⟨h1, h2⟩ := Prod.mk.inj h
        subst h1 h2
        exact ⟨e, he, by simpa using hdir, hf⟩

/-! ## C3: dedup by content -/

/-- C3: resolving by content hash yields exactly one canonical record — the
first record in rowid order with that hash whose path exists on disk; records
with that hash whose paths are gone are deleted during the lookup; two
sequentially resolved paths with identical content hash resolve to the same
record; and once the canonical record's file is deleted, the lookup instead
yields the first *remaining* record with that hash whose path exists (never
the old one). -/
theorem C3_dedup_by_content (hash : List Nat → List Char) (fs : FS)
    (db db' : List Row) (h : List Char) (r : Row)
    (hfind : find_library_file_by_hash fs h db = (some r, db')) :
    (r ∈ db ∧ r.sha1 = h ∧ path_exists fs r.path = true ∧
      canonical_record_spec fs h db = some r) ∧
    (List.Sublist db' db ∧
      ∀ x ∈ db, x ∉ db' → x.sha1 = h ∧ path_exists fs x.path = false) ∧
    (∀ (p1 p2 : Path) (e1 e2 : Entry) (r1 r2 : Row) (dbA dbB dbQ : List Row),
      fsFind fs p1 = some e1 → fsFind fs p2 = some e2 →
      hash e1.content = hash e2.content →
      resolve_row hash fs dbQ p1 = some (r1, dbA) →
      resolve_row hash fs dbA p2 = some (r2, dbB) → r2 = r1) ∧
    (∀ fs' : FS, path_exists fs' r.path = false →
      (find_library_file_by_hash fs' h db').1 = canonical_record_spec fs' h db' ∧
      canonical_record_spec fs' h db' ≠ some r) := by
  have hspec : canonical_record_spec fs h db = some r := by
    rw [← find_fst_eq_spec, hfind]
  obtain ⟨hmem, hsha, hex⟩ := canonical_record_spec_some hspec
  refine ⟨⟨hmem, hsha, hex, hspec⟩, ⟨?_, ?_⟩, ?_, ?_⟩
  · have := find_snd_sublist fs h db
    rw [hfind] at this
    exact this
  · intro x hx hnx
    have := find_snd_deleted_stale fs h db x hx
    rw [hfind] at this
    exact this hnx
  · intro p1 p2 e1 e2 r1 r2 dbA dbB dbQ he1 he2 hh hres1 hres2
    obtain ⟨e1', he1', hd1, hf1⟩ := resolve_row_some hres1
    rw [he1] at he1'
    injection he1' with he1'
    subst he1'
    have hcanon : Canon fs dbA (hash e1.content) r1 := find_some_canon hf1
    obtain ⟨e2', he2', hd2, hf2⟩ := resolve_row_some hres2
    rw [he2] at he2'
    injection he2' with he2'
    subst he2'
    have hcanon2 : Canon fs
        (if (find_library_files_by_size dbA e2.content.length).isEmpty
          then dbA ++ [⟨p2, hash e2.content, e2.content.length, e2.mtime⟩]
          else dbA)
        (hash e2.content) r1 := by
      rw [← hh]
      constructor
      · split
        · exact dbShape_append hcanon.1 _
        · exact hcanon.1
      · exact hcanon.2
    rw [find_eq_of_canon hcanon2] at hf2
    obtain ⟨hx, _⟩ := Prod.mk.inj hf2
    injection hx with hx
    exact hx.symm
  · intro fs' hex'
    refine ⟨find_fst_eq_spec fs' h db', ?_⟩
    intro hc
    have := (canonical_record_spec_some hc).2.2
    rw [hex'] at this
    exact Bool.false_ne_true this

/-- Witness for C3 on a concrete index: three rows share hash `h` — a stale
one (`x`, no longer on disk), then `p`, then `q`.  The lookup returns `p` and
deletes `x`; after deleting file `p`, the next lookup returns `q`. -/
theorem C3_dedup_by_content_witness :
    canonical_record_spec
        [⟨"p".data, false, [1], 0⟩, ⟨"q".data, false, [1], 0⟩] "h".data
        [⟨"x".data, "h".data, 1, 0⟩, ⟨"p".data, "h".data, 1, 0⟩,
         ⟨"q".data, "h".data, 1, 0⟩]
      = some ⟨"p".data, "h".data, 1, 0⟩ ∧
    canonical_record_spec
        (fsRemove [⟨"p".data, false, [1], 0⟩, ⟨"q".data, false, [1], 0⟩] "p".data)
        "h".data [⟨"p".data, "h".data, 1, 0⟩, ⟨"q".data, "h".data, 1, 0⟩]
      ≠ some ⟨"p".data, "h".data, 1, 0⟩ ∧
    (find_library_file_by_hash
        (fsRemove [⟨"p".data, false, [1], 0⟩, ⟨"q".data, false, [1], 0⟩] "p".data)
        "h".data [⟨"p".data, "h".data, 1, 0⟩, ⟨"q".data, "h".data, 1, 0⟩]).1
      = some ⟨"q".data, "h".data, 1, 0⟩ := by
  have h := C3_dedup_by_content (fun _ => "h".data)
      [⟨"p".data, false, [1], 0⟩, ⟨"q".data, false, [1], 0⟩]
      [⟨"x".data, "h".data, 1, 0⟩, ⟨"p".data, "h".data, 1, 0⟩,
       ⟨"q".data, "h".data, 1, 0⟩]
      [⟨"p".data, "h".data, 1, 0⟩, ⟨"q".data, "h".data, 1, 0⟩]
      "h".data ⟨"p".data, "h".data, 1, 0⟩ (by decide)
  exact ⟨h.1.2.2.2, (h.2.2.2 _ (by decide)).2, by decide⟩

/-! ## C6: shuffled naming -/

/-- C6: for a resolved row, the stored hash is the digest of the walked
file's content bytes, the shuffled destination is
`shuffled / "<stem> - <first 8 hash chars><ext>"` built from the canonical
row's basename and hash, and the name is a deterministic function of the
content hash and the basename. -/
theorem C6_shuffled_naming (hash : List Nat → List Char) (shuffled : Path)
    (fs : FS) (db db' : List Row) (fname : Path) (e : Entry) (r : Row)
    (he : fsFind fs fname = some e)
    (hres : resolve_row hash fs db fname = some (r, db')) :
    r.sha1 = hash e.content ∧
    dest_shuf shuffled r =
      path_join shuffled ((splitext (basename r.path)).1
        ++ (' ' :: '-' :: ' ' :: [])
        ++ (hash e.content).take 8 ++ (splitext (basename r.path)).2) ∧
    (∀ r' : Row, r'.sha1 = r.sha1 → basename r'.path = basename r.path →
      dest_shuf shuffled r' = dest_shuf shuffled r) := by
  have hsha : r.sha1 = hash e.content := by
    obtain ⟨e', he', hd, hf⟩ := resolve_row_some hres
    rw [he] at he'
    injection he' with he'
    subst he'
    obtain ⟨⟨d₁, d₂, _, _, hr⟩, _⟩ := find_some_canon hf
    exact hr
  refine ⟨hsha, ?_, ?_⟩
  · rw [dest_shuf, hsha]
  · intro r' h1 h2
    rw [dest_shuf, dest_shuf, h1, h2]

/-- Witness for C6: the concrete resolution of `l/a.mp3` (content `[1]`,
digest `aabbccddee`) names the shuffled file `a - aabbccdd.mp3`. -/
theorem C6_shuffled_naming_witness :
    dest_shuf "s".data ⟨"l/a.mp3".data, "aabbccddee".data, 1, 5⟩ =
      path_join "s".data
        ((splitext (basename "l/a.mp3".data)).1 ++ (' ' :: '-' :: ' ' :: [])
          ++ ("aabbccddee".data).take 8
          ++ (splitext (basename "l/a.mp3".data)).2) := by
  have h := C6_shuffled_naming
      (fun c => if c = [1] then "aabbccddee".data else "ffgghhiijj".data)
      "s".data [⟨"l/a.mp3".data, false, [1], 5⟩] []
      [⟨"l/a.mp3".data, "aabbccddee".data, 1, 5⟩] "l/a.mp3".data
      ⟨"l/a.mp3".data, false, [1], 5⟩ ⟨"l/a.mp3".data, "aabbccddee".data, 1, 5⟩
      (by decide) (by decide)
  simpa using h.2.1

/-! ## C5: prune safety -/

theorem delete_excluded_keeps (included : List Path) (org shuf : Path) :
    ∀ (fs : FS) (e : Entry), e ∈ fs →
    (e.path ∈ included ∨ e.isDir = true) →
    e ∈ delete_excluded_files included org shuf fs := by
  intro fs
  induction fs with
  | nil => intro e he; simp at he
  | cons x rest ih =>
    intro e he hkeep
    rw [delete_excluded_files]
    split
    · rename_i hcond
      rcases List.mem_cons.mp he with rfl | he
      · rcases hkeep with hk | hk
        · exact absurd hk hcond.2.2
        · rw [hcond.1] at hk; exact absurd hk (by simp)
      · exact ih e he hkeep
    · rcases List.mem_cons.mp he with rfl | he
      · exact List.mem_cons_self _ _
      · exact List.mem_cons_of_mem _ (ih e he hkeep)

theorem delete_excluded_removes (included : List Path) (org shuf : Path) :
    ∀ (fs : FS) (e : Entry), e.isDir = false →
    (globVisits org e.path = true ∨ globVisits shuf e.path = true) →
    ¬ e.path ∈ included →
    ¬ e ∈ delete_excluded_files included org shuf fs := by
  intro fs
  induction fs with
  | nil => intro e _ _ _ hc; simp [delete_excluded_files] at hc
  | cons x rest ih =>
    intro e hdir hroot hnin hc
    rw [delete_excluded_files] at hc
    split at hc
    · exact ih e hdir hroot hnin hc
    · rename_i hcond
      rcases List.mem_cons.mp hc with rfl | hc
      · exact hcond ⟨hdir, hroot, hnin⟩
      · exact ih e hdir hroot hnin hc

theorem delete_excluded_not_visited (included : List Path) (org shuf : Path) :
    ∀ (fs : FS) (e : Entry), e ∈ fs →
    globVisits org e.path = false → globVisits shuf e.path = false →
    e ∈ delete_excluded_files included org shuf fs := by
  intro fs
  induction fs with
  | nil => intro e he; simp at he
  | cons x rest ih =>
    intro e he ho hs
    rw [delete_excluded_files]
    split
    · rename_i hcond
      rcases List.mem_cons.mp he with rfl | he
      · rcases hcond.2.1 with hv | hv
        · rw [ho] at hv; exact absurd hv (by simp)
        · rw [hs] at hv; exact absurd hv (by simp)
      · exact ih e he ho hs
    · rcases List.mem_cons.mp he with rfl | he
      · exact List.mem_cons_self _ _
      · exact List.mem_cons_of_mem _ (ih e he ho hs)

theorem delete_excluded_subset (included : List Path) (org shuf : Path) :
    ∀ (fs : FS) (e : Entry),
    e ∈ delete_excluded_files included org shuf fs → e ∈ fs := by
  intro fs
  induction fs with
  | nil => intro e hc; simp [delete_excluded_files] at hc
  | cons x rest ih =>
    intro e hc
    rw [delete_excluded_files] at hc
    split at hc
    · exact List.mem_cons_of_mem _ (ih e hc)
    · rcases List.mem_cons.mp hc with rfl | hc
      · exact List.mem_cons_self _ _
      · exact List.mem_cons_of_mem _ (ih e hc)

/-- C5 (amended): with pruning enabled, after the reconciliation loop has
recorded all copies, the final filesystem is exactly the completed
reconciliation state filtered by the prune pass (pruning runs strictly after
reconciliation, never interleaved); a file recorded in the destination set is
never deleted, directories are never deleted, and a regular file is deleted
iff the recursive glob walk of a destination root lists it (under the root
with no dot-prefixed segment below it) and it is absent from the set — in
particular hidden destination files are never even visited, hence never
deleted. -/
theorem C5_prune_safety (hash : List Nat → List Char)
    (library organized shuffled : Path) (lines : List Path)
    (fs0 : FS) (db0 : List Row) (pre : RunState)
    (h : main_run hash [] library organized shuffled lines false fs0 db0
      = .ok pre) :
    (main_run hash [] library organized shuffled lines true fs0 db0
      = .ok ⟨delete_excluded_files pre.included organized shuffled pre.fs,
             pre.db, pre.included, pre.copies⟩) ∧
    (∀ e ∈ pre.fs, e.path ∈ pre.included →
      e ∈ delete_excluded_files pre.included organized shuffled pre.fs) ∧
    (∀ e ∈ pre.fs, e.isDir = true →
      e ∈ delete_excluded_files pre.included organized shuffled pre.fs) ∧
    (∀ e ∈ pre.fs, e.isDir = false →
      (globVisits organized e.path = true ∨ globVisits shuffled e.path = true) →
      ¬ e.path ∈ pre.included →
      ¬ e ∈ delete_excluded_files pre.included organized shuffled pre.fs) ∧
    (∀ e ∈ pre.fs, globVisits organized e.path = false →
      globVisits shuffled e.path = false →
      e ∈ delete_excluded_files pre.included organized shuffled pre.fs) ∧
    (∀ e ∈ delete_excluded_files pre.included organized shuffled pre.fs,
      e ∈ pre.fs) := by
  have hloop : run_loop hash [] library organized shuffled
      (gen_input_files
        (load_filters (makedirs (makedirs fs0 organized) shuffled) library lines)
        (makedirs (makedirs fs0 organized) shuffled) library)
      ⟨makedirs (makedirs fs0 organized) shuffled, db0, [], 0⟩ = .ok pre := by
    simp only [main_run] at h
    split at h
    · exact absurd h (by simp)
    · rename_i st hst
      simp only [Bool.false_eq_true, if_false] at h
      injection h with h
      rw [← h]
      exact hst
  refine ⟨?_, ?_, ?_, ?_, ?_, ?_⟩
  · simp [main_run, hloop]
  · intro e he hin
    exact delete_excluded_keeps _ _ _ _ e he (Or.inl hin)
  · intro e he hdir
    exact delete_excluded_keeps _ _ _ _ e he (Or.inr hdir)
  · intro e _ hdir hroot hnin
    exact delete_excluded_removes _ _ _ _ e hdir hroot hnin
  · intro e he ho hs
    exact delete_excluded_not_visited _ _ _ _ e he ho hs
  · exact delete_excluded_subset _ _ _ _

/-- The reconciled filesystem of the concrete C5 run (library `l/a.mp3` plus
a stale destination file `o/stale` and a stale hidden destination file
`o/.hidden`). -/
def c5preFs : FS :=
  [⟨"s/a - aabbccdd.mp3".data, false, [1], 5⟩,
   ⟨"o/a.mp3".data, false, [1], 5⟩,
   ⟨"s".data, true, [], 0⟩,
   ⟨"o".data, true, [], 0⟩,
   ⟨"l/a.mp3".data, false, [1], 5⟩,
   ⟨"o/stale".data, false, [9], 0⟩,
   ⟨"o/.hidden".data, false, [7], 0⟩]

/-- C5 counterexample: the claim "every regular file under either destination
root that is absent from the computed destination-path set is deleted" fails.
`glob.iglob('o/**', recursive=True)` never lists dot-prefixed names, so the
stale hidden file `o/.hidden` — a regular file under the organized root that
is absent from the recorded set — survives a pruning-enabled run, while its
non-hidden sibling `o/stale` is deleted. -/
theorem C5_prune_safety_counterexample :
    (main_run
        (fun c => if c = [1] then "aabbccddee".data else "ffgghhiijj".data)
        [] "l".data "o".data "s".data ["*".data] true
        [⟨"l/a.mp3".data, false, [1], 5⟩, ⟨"o/stale".data, false, [9], 0⟩,
         ⟨"o/.hidden".data, false, [7], 0⟩] []
      = .ok ⟨[⟨"s/a - aabbccdd.mp3".data, false, [1], 5⟩,
              ⟨"o/a.mp3".data, false, [1], 5⟩,
              ⟨"s".data, true, [], 0⟩,
              ⟨"o".data, true, [], 0⟩,
              ⟨"l/a.mp3".data, false, [1], 5⟩,
              ⟨"o/.hidden".data, false, [7], 0⟩],
             [⟨"l/a.mp3".data, "aabbccddee".data, 1, 5⟩],
             ["o/a.mp3".data, "s/a - aabbccdd.mp3".data], 2⟩) ∧
    underRoot "o".data "o/.hidden".data = true ∧
    ("o/.hidden".data ∉ (["o/a.mp3".data, "s/a - aabbccdd.mp3".data] : List Path)) ∧
    ((⟨"o/.hidden".data, false, [7], 0⟩ : Entry) ∈
      [⟨"s/a - aabbccdd.mp3".data, false, [1], 5⟩,
       ⟨"o/a.mp3".data, false, [1], 5⟩,
       ⟨"s".data, true, [], 0⟩,
       ⟨"o".data, true, [], 0⟩,
       ⟨"l/a.mp3".data, false, [1], 5⟩,
       ⟨"o/.hidden".data, false, [7], 0⟩]) := by
  refine ⟨by decide, by decide, by decide, by decide⟩

/-- Witness for C5 (amended): on the concrete run whose destination holds a
stale file `o/stale` and a stale hidden file `o/.hidden`, the pruning run
returns exactly the reconciled state filtered by `delete_excluded_files`; the
non-hidden stale file is deleted and the hidden one survives. -/
theorem C5_prune_safety_witness :
    (main_run (fun c => if c = [1] then "aabbccddee".data else "ffgghhiijj".data)
        [] "l".data "o".data "s".data ["*".data] true
        [⟨"l/a.mp3".data, false, [1], 5⟩, ⟨"o/stale".data, false, [9], 0⟩,
         ⟨"o/.hidden".data, false, [7], 0⟩] []
      = .ok ⟨delete_excluded_files
               ["o/a.mp3".data, "s/a - aabbccdd.mp3".data] "o".data "s".data
               c5preFs,
             [⟨"l/a.mp3".data, "aabbccddee".data, 1, 5⟩],
             ["o/a.mp3".data, "s/a - aabbccdd.mp3".data], 2⟩) ∧
    ¬ (⟨"o/stale".data, false, [9], 0⟩ : Entry) ∈
        delete_excluded_files ["o/a.mp3".data, "s/a - aabbccdd.mp3".data]
          "o".data "s".data c5preFs ∧
    (⟨"o/.hidden".data, false, [7], 0⟩ : Entry) ∈
        delete_excluded_files ["o/a.mp3".data, "s/a - aabbccdd.mp3".data]
          "o".data "s".data c5preFs := by
  have h := C5_prune_safety
      (fun c => if c = [1] then "aabbccddee".data else "ffgghhiijj".data)
      "l".data "o".data "s".data ["*".data]
      [⟨"l/a.mp3".data, false, [1], 5⟩, ⟨"o/stale".data, false, [9], 0⟩,
       ⟨"o/.hidden".data, false, [7], 0⟩] []
      ⟨c5preFs, [⟨"l/a.mp3".data, "aabbccddee".data, 1, 5⟩],
       ["o/a.mp3".data, "s/a - aabbccdd.mp3".data], 2⟩
      (by decide)
  refine ⟨h.1, ?_, ?_⟩
  · exact h.2.2.2.1 ⟨"o/stale".data, false, [9], 0⟩ (by decide) rfl
      (Or.inl (by decide)) (by decide)
  · exact h.2.2.2.2.1 ⟨"o/.hidden".data, false, [7], 0⟩ (by decide)
      (by decide) (by decide)

/-! ## Path well-formedness, used for the idempotence theorem (C1) -/

/-- The path does not begin with `'/'`. -/
def noLeadSlash : Path → Bool
  | '/' :: _ => false
  | _ => true

/-- `p` is a well-formed path strictly below the library root: it extends
`library ++ "/"` and the remainder does not begin with another slash. -/
def goodLibB (library p : Path) : Bool :=
  strPrefix (library ++ ['/']) p && noLeadSlash (p.drop (library.length + 1))

/-- All entries of `new` lie outside the library tree. -/
def offLib (library : Path) (new : FS) : Prop :=
  ∀ e ∈ new, strPrefix (library ++ ['/']) e.path = false

/-- All rows of the table point below the library root. -/
def dbGood (library : Path) (db : List Row) : Prop :=
  ∀ r ∈ db, goodLibB library r.path = true

/-- Destinations under `root` never land inside the library tree (the
separation of destination roots from the library that the spec's drive/library
split presumes). -/
def sepJoin (library root : Path) : Prop :=
  ∀ s : Path, noLeadSlash s = true →
    strPrefix (library ++ ['/']) (path_join root s) = false

theorem noLeadSlash_cons {c : Char} (t : Path) (hc : c ≠ '/') :
    noLeadSlash (c :: t) = true := by
  unfold noLeadSlash
  split
  · rename_i heq
    injection heq with h1 _
    exact absurd h1 hc
  · rfl

theorem joinComponents_cons (c g : List Char) (gs : List (List Char)) :
    joinComponents (c :: g :: gs) = c ++ '/' :: joinComponents (g :: gs) := rfl

theorem lastD_cons (x y : List Char) (ys : List (List Char)) :
    lastD (x :: y :: ys) = lastD (y :: ys) := rfl

theorem splitPath_ne_nil (p : Path) : splitPath p ≠ [] := by
  cases p with
  | nil => simp [splitPath]
  | cons c rest =>
    rw [splitPath]
    split
    · simp
    · split <;> simp

theorem splitPath_append (a b : Path) :
    splitPath (a ++ '/' :: b) = splitPath a ++ splitPath b := by
  induction a with
  | nil => simp [splitPath]
  | cons c a' ih =>
    by_cases hc : c = '/'
    · subst hc
      simp [splitPath, ih]
    · simp only [List.cons_append, splitPath, if_neg hc, List.append_eq, ih]
      cases hsa : splitPath a' with
      | nil => exact absurd hsa (splitPath_ne_nil a')
      | cons g gs => simp [hsa]

theorem join_split (p : Path) : joinComponents (splitPath p) = p := by
  induction p with
  | nil => rfl
  | cons c rest ih =>
    cases hs : splitPath rest with
    | nil => exact absurd hs (splitPath_ne_nil rest)
    | cons g gs =>
      rw [hs] at ih
      by_cases hc : c = '/'
      · subst hc
        simp [splitPath, hs, joinComponents_cons, ih]
      · simp only [splitPath, if_neg hc, hs]
        cases gs with
        | nil =>
          show c :: g = c :: rest
          rw [show joinComponents [g] = g from rfl] at ih
          rw [ih]
        | cons g' gs' =>
          rw [joinComponents_cons]
          rw [joinComponents_cons] at ih
          rw [List.cons_append, ih]

theorem commonComponents_self_append (xs ys : List (List Char)) :
    commonComponents xs (xs ++ ys) = xs := by
  induction xs with
  | nil =>
    cases ys with
    | nil => rfl
    | cons y ys' => rfl
  | cons x xs' ih =>
    rw [List.cons_append, commonComponents, if_pos rfl, ih]

theorem commonpath_good {library p : Path} (t : Path)
    (hp : p = library ++ '/' :: t) : commonpath library p = library := by
  rw [hp, commonpath, splitPath_append, commonComponents_self_append, join_split]

theorem goodLibB_elim {library p : Path} (h : goodLibB library p = true) :
    ∃ t, p = library ++ '/' :: t ∧ noLeadSlash t = true := by
  have h' : strPrefix (library ++ ['/']) p = true ∧
      noLeadSlash (p.drop (library.length + 1)) = true := by
    simpa [goodLibB] using h
  obtain ⟨h1, h2⟩ := h'
  obtain ⟨t, ht⟩ := (strPrefix_iff _ _).mp h1
  refine ⟨t, by rw [ht]; simp, ?_⟩
  have hd : p.drop (library.length + 1) = t := by
    rw [ht]
    have hlen : library.length + 1 = (library ++ ['/']).length := by simp
    rw [hlen, List.drop_left]
  rw [← hd]
  exact h2

theorem dest_org_eq {library : Path} (organized : Path) {r : Row} (t : Path)
    (hp : r.path = library ++ '/' :: t) :
    dest_org library organized r = path_join organized t := by
  rw [dest_org, commonpath_good t hp, hp]
  have hd : (library ++ '/' :: t).drop library.length = '/' :: t :=
    List.drop_left _ _
  rw [hd]
  rfl

theorem splitPath_no_slash (p : Path) : ∀ g ∈ splitPath p, '/' ∉ g := by
  induction p with
  | nil =>
    intro g hg
    rw [splitPath] at hg
    rcases List.mem_singleton.mp hg with rfl
    simp
  | cons c rest ih =>
    intro g hg
    by_cases hc : c = '/'
    · subst hc
      rw [splitPath, if_pos rfl] at hg
      rcases List.mem_cons.mp hg with rfl | hg
      · simp
      · exact ih g hg
    · rw [splitPath, if_neg hc] at hg
      cases hs : splitPath rest with
      | nil => exact absurd hs (splitPath_ne_nil rest)
      | cons g' gs =>
        rw [hs] at hg
        rcases List.mem_cons.mp hg with rfl | hg
        · intro hmem
          rcases List.mem_cons.mp hmem with h1 | h1
          · exact hc h1.symm
          · exact ih g' (hs ▸ List.mem_cons_self _ _) h1
        · exact ih g (hs ▸ List.mem_cons_of_mem _ hg)

theorem lastD_mem : ∀ (l : List (List Char)), l ≠ [] → lastD l ∈ l := by
  intro l
  induction l with
  | nil => intro h; exact absurd rfl h
  | cons x xs ih =>
    intro _
    cases xs with
    | nil => exact List.mem_singleton.mpr rfl
    | cons y ys =>
      rw [lastD_cons]
      exact List.mem_cons_of_mem _ (ih (by simp))

theorem basename_no_slash (p : Path) : '/' ∉ basename p :=
  splitPath_no_slash p _ (lastD_mem _ (splitPath_ne_nil p))

theorem splitextCore_fst_subset : ∀ (l : List Char), ∀ c ∈ (splitextCore l).1, c ∈ l := by
  intro l
  induction l with
  | nil => intro c hc; simp [splitextCore] at hc
  | cons x xs ih =>
    intro c hc
    rw [splitextCore] at hc
    split at hc
    · simp at hc
    · rcases List.mem_cons.mp hc with rfl | hc
      · exact List.mem_cons_self _ _
      · exact List.mem_cons_of_mem _ (ih c hc)

theorem splitext_fst_subset (b : List Char) : ∀ c ∈ (splitext b).1, c ∈ b := by
  intro c hc
  rw [splitext] at hc
  rcases List.mem_append.mp hc with hc | hc
  · exact (List.takeWhile_sublist _).subset hc
  · exact (List.drop_subset _ _) (splitextCore_fst_subset _ c hc)

theorem dest_shuf_noLead (shuffled : Path) (r : Row) :
    ∃ s, dest_shuf shuffled r = path_join shuffled s ∧ noLeadSlash s = true := by
  rw [dest_shuf]
  refine ⟨_, rfl, ?_⟩
  cases hst : (splitext (basename r.path)).1 with
  | nil => rfl
  | cons c cs =>
    rw [List.cons_append]
    apply noLeadSlash_cons
    intro hc
    subst hc
    exact basename_no_slash r.path
      (splitext_fst_subset _ _ (hst ▸ List.mem_cons_self _ _))

theorem reverse_dropWhile_pref (l : List Char) (q : Char → Bool) :
    ∃ t, l = (l.reverse.dropWhile q).reverse ++ t := by
  refine ⟨(l.reverse.takeWhile q).reverse, ?_⟩
  rw [← List.reverse_append, List.takeWhile_append_dropWhile, List.reverse_reverse]

theorem dirname_pref (p : Path) : ∃ t, p = dirname p ++ t := by
  rw [dirname]
  split
  · exact reverse_dropWhile_pref p _
  · obtain ⟨t1, ht1⟩ := reverse_dropWhile_pref p (fun c => ¬ c = '/')
    obtain ⟨t2, ht2⟩ :=
      reverse_dropWhile_pref ((p.reverse.dropWhile (fun c => ¬ c = '/')).reverse)
        (fun c => c = '/')
    exact ⟨t2 ++ t1, by rw [← List.append_assoc, ← ht2, ← ht1]⟩

theorem offlib_prefix_trans {library out q : Path} (t : Path) (hq : out = q ++ t)
    (h : strPrefix (library ++ ['/']) out = false) :
    strPrefix (library ++ ['/']) q = false := by
  cases hcase : strPrefix (library ++ ['/']) q with
  | false => rfl
  | true =>
    obtain ⟨u, hu⟩ := (strPrefix_iff _ _).mp hcase
    have : strPrefix (library ++ ['/']) out = true :=
      (strPrefix_iff _ _).mpr ⟨u ++ t, by rw [hq, hu, List.append_assoc]⟩
    rw [this] at h
    exact absurd h (by simp)

theorem offlib_dirname {library out : Path}
    (h : strPrefix (library ++ ['/']) out = false) :
    strPrefix (library ++ ['/']) (dirname out) = false := by
  obtain ⟨t, ht⟩ := dirname_pref out
  exact offlib_prefix_trans t ht h

/-! ## Behaviour of `copy_file` (for C1) -/

/-- A destination that already exists on disk is never copied again: only the
`makedirs` side effect happens and the copy flag is `false`. -/
theorem copy_file_skip (failing : List Path) (fs : FS) (inp out : Path)
    (hout : path_exists fs out = true) :
    copy_file failing fs inp out = .ok (makedirs fs (dirname out), false) := by
  rw [copy_file, if_pos (path_exists_makedirs_mono _ hout)]

/-- When additionally the parent directory already exists, a skipped copy
leaves the filesystem entirely unchanged. -/
theorem copy_file_skip_ready (failing : List Path) (fs : FS) (inp out : Path)
    (hout : path_exists fs out = true)
    (hdir : dirname out = [] ∨ path_exists fs (dirname out) = true) :
    copy_file failing fs inp out = .ok (fs, false) := by
  rw [copy_file_skip failing fs inp out hout, makedirs_noop hdir]

/-- A copy with an existing source and no injected I/O fault succeeds, only
prepends entries (the destination file and possibly its parent directory),
and afterwards the destination and its parent exist. -/
theorem copy_file_ok {fs : FS} (inp out : Path)
    (hinp : path_exists fs inp = true) :
    ∃ new b, copy_file [] fs inp out = .ok (new ++ fs, b) ∧
      (∀ x ∈ new, x.path = out ∨ x.path = dirname out) ∧
      path_exists (new ++ fs) out = true ∧
      (dirname out = [] ∨ path_exists (new ++ fs) (dirname out) = true) := by
  rw [copy_file]
  rcases makedirs_shape fs (dirname out) with hmk | hmk <;> rw [hmk]
  · -- makedirs did nothing: the directory existed already (or was empty)
    have hdir : dirname out = [] ∨ path_exists fs (dirname out) = true := by
      by_cases hd0 : dirname out = []
      · exact Or.inl hd0
      · right
        have := path_exists_makedirs_self fs (dirname out) hd0
        rw [hmk] at this
        exact this
    by_cases hex : path_exists fs out = true
    · rw [if_pos hex]
      exact ⟨[], false, rfl, by simp, hex, hdir⟩
    · rw [if_neg hex]
      rw [if_neg (by simp)]
      have : fsFind fs inp ≠ none := by
        intro hc
        rw [path_exists, hc] at hinp
        exact absurd hinp (by simp)
      cases hf : fsFind fs inp with
      | none => exact absurd hf this
      | some e =>
        refine ⟨[⟨out, false, e.content, e.mtime⟩], true, rfl, by simp, ?_, ?_⟩
        · simp [path_exists, fsFind]
        · rcases hdir with hd | hd
          · exact Or.inl hd
          · exact Or.inr (path_exists_mono _ hd)
  · -- makedirs created the directory entry
    have hdex : path_exists (⟨dirname out, true, [], 0⟩ :: fs) (dirname out) = true := by
      simp [path_exists, fsFind]
    by_cases hex : path_exists (⟨dirname out, true, [], 0⟩ :: fs) out = true
    · rw [if_pos hex]
      exact ⟨[⟨dirname out, true, [], 0⟩], false, rfl, by simp, hex, Or.inr hdex⟩
    · rw [if_neg hex]
      rw [if_neg (by simp)]
      have hinp' : path_exists (⟨dirname out, true, [], 0⟩ :: fs) inp = true :=
        path_exists_mono [⟨dirname out, true, [], 0⟩] hinp
      have : fsFind (⟨dirname out, true, [], 0⟩ :: fs) inp ≠ none := by
        intro hc
        rw [path_exists, hc] at hinp'
        exact absurd hinp' (by simp)
      cases hf : fsFind (⟨dirname out, true, [], 0⟩ :: fs) inp with
      | none => exact absurd hf this
      | some e =>
        refine ⟨[⟨out, false, e.content, e.mtime⟩, ⟨dirname out, true, [], 0⟩],
          true, rfl, by simp, ?_, ?_⟩
        · simp [path_exists, fsFind]
        · exact Or.inr (path_exists_mono [⟨out, false, e.content, e.mtime⟩] hdex)

/-! ## Stability of the walk and the filters under off-library growth (C1) -/

theorem offlib_ne {library fname : Path} {e : Entry}
    (he : strPrefix (library ++ ['/']) e.path = false)
    (hf : strPrefix (library ++ ['/']) fname = true) : e.path ≠ fname := by
  intro hc
  rw [hc, hf] at he
  exact absurd he (by simp)

theorem fsFind_extend {library : Path} {new fs : FS} {fname : Path}
    (hnew : offLib library new)
    (hf : strPrefix (library ++ ['/']) fname = true) :
    fsFind (new ++ fs) fname = fsFind fs fname :=
  fsFind_append_of_not_mem (fun e he => offlib_ne (hnew e he) hf)

theorem walk_extend {library : Path} {new fs : FS} (hnew : offLib library new) :
    walk (new ++ fs) library = walk fs library := by
  unfold walk
  rw [List.filter_append]
  have hempty : new.filter (fun e => strPrefix (library ++ ['/']) e.path) = [] := by
    rw [List.filter_eq_nil_iff]
    intro e he
    simp [hnew e he]
  rw [hempty, List.nil_append]

theorem walk_mem_pref {fs : FS} {library f : Path} (hm : f ∈ walk fs library) :
    strPrefix (library ++ ['/']) f = true := by
  unfold walk at hm
  rcases List.mem_map.mp hm with ⟨e, he, rfl⟩
  exact (List.mem_filter.mp he).2

theorem walk_mem_entry {fs : FS} {library f : Path} (hm : f ∈ walk fs library) :
    ∃ e ∈ fs, e.path = f ∧ strPrefix (library ++ ['/']) e.path = true := by
  unfold walk at hm
  rcases List.mem_map.mp hm with ⟨e, he, rfl⟩
  exact ⟨e, (List.mem_filter.mp he).1, rfl, (List.mem_filter.mp he).2⟩

theorem should_include_extend {s library : Path} {new fs : FS} {fname : Path}
    (hnew : offLib library new)
    (hf : strPrefix (library ++ ['/']) fname = true) :
    (Filter.build s library (new ++ fs)).should_include fname
      = (Filter.build s library fs).should_include fname := by
  unfold Filter.build Filter.should_include
  simp only
  have hmem : (fname ∈ (((new ++ fs).map (fun e => e.path)).filter
        (fun p => globMatch
          (path_join library (if strPrefix ['!'] s then s.drop 1 else s)) p))) ↔
      (fname ∈ ((fs.map (fun e => e.path)).filter
        (fun p => globMatch
          (path_join library (if strPrefix ['!'] s then s.drop 1 else s)) p))) := by
    rw [List.map_append, List.filter_append, List.mem_append]
    constructor
    · rintro (hin | hin)
      · exfalso
        have := (List.mem_filter.mp hin).1
        rcases List.mem_map.mp this with ⟨e, he, rfl⟩
        exact offlib_ne (hnew e he) hf rfl
      · exact hin
    · intro hin
      exact Or.inr hin
  by_cases hm : fname ∈ ((fs.map (fun e => e.path)).filter
      (fun p => globMatch
        (path_join library (if strPrefix ['!'] s then s.drop 1 else s)) p))
  · rw [if_pos (hmem.mpr hm), if_pos hm]
  · rw [if_neg (fun hc => hm (hmem.mp hc)), if_neg hm]

theorem filters_decide_extend {library : Path} {new fs : FS} {fname : Path}
    (lines : List Path) (hnew : offLib library new)
    (hf : strPrefix (library ++ ['/']) fname = true) :
    filters_decide (load_filters (new ++ fs) library lines) fname
      = filters_decide (load_filters fs library lines) fname := by
  induction lines with
  | nil => rfl
  | cons line rest ih =>
    show filters_decide
        (Filter.build (strip line) library (new ++ fs)
          :: load_filters (new ++ fs) library rest) fname = _
    rw [filters_decide, should_include_extend hnew hf]
    rw [show load_filters fs library (line :: rest)
      = Filter.build (strip line) library fs :: load_filters fs library rest
      from rfl]
    rw [filters_decide]
    cases (Filter.build (strip line) library fs).should_include fname with
    | none => exact ih
    | some b => cases b <;> rfl

theorem gen_input_files_extend {library : Path} {new fs : FS}
    (lines : List Path) (hnew : offLib library new) :
    gen_input_files (load_filters (new ++ fs) library lines) (new ++ fs) library
      = gen_input_files (load_filters fs library lines) fs library := by
  unfold gen_input_files
  rw [walk_extend hnew]
  apply List.filter_congr
  intro f hfm
  rw [filters_decide_extend lines hnew (walk_mem_pref hfm)]

/-! ## One reconciliation step (C1) -/

theorem canon_mono_fs {fs fs' : FS} {db : List Row} {h : List Char} {r : Row}
    (hc : Canon fs db h r)
    (hmono : ∀ p, path_exists fs p = true → path_exists fs' p = true) :
    Canon fs' db h r := ⟨hc.1, hmono _ hc.2⟩

theorem canonical_of_canon {fs : FS} {db : List Row} {h : List Char} {r : Row}
    (hc : Canon fs db h r) : canonical_record_spec fs h db = some r := by
  rw [← find_fst_eq_spec, find_eq_of_canon hc]

/-- The state `run_loop` leaves behind satisfies, for a processed `fname`:
the file is still found unchanged, its canonical row is pinned (`Canon`), and
both of its destinations and their parent directories exist on disk. -/
def SatOne (hash : List Nat → List Char) (library organized shuffled : Path)
    (st : RunState) (fname : Path) : Prop :=
  ∃ e r, fsFind st.fs fname = some e ∧ e.isDir = false ∧
    Canon st.fs st.db (hash e.content) r ∧
    path_exists st.fs (dest_org library organized r) = true ∧
    (dirname (dest_org library organized r) = [] ∨
      path_exists st.fs (dirname (dest_org library organized r)) = true) ∧
    path_exists st.fs (dest_shuf shuffled r) = true ∧
    (dirname (dest_shuf shuffled r) = [] ∨
      path_exists st.fs (dirname (dest_shuf shuffled r)) = true)

/-- The destination pair a walked file resolves to, read off a run state. -/
def dests_of (hash : List Nat → List Char) (library organized shuffled : Path)
    (st : RunState) (fname : Path) : List Path :=
  match fsFind st.fs fname with
  | none => []
  | some e =>
    match canonical_record_spec st.fs (hash e.content) st.db with
    | none => []
    | some r => [dest_org library organized r, dest_shuf shuffled r]

/-- All destinations of a list of walked files. -/
def destsAll (hash : List Nat → List Char) (library organized shuffled : Path)
    (st : RunState) : List Path → List Path
  | [] => []
  | f :: rest => dests_of hash library organized shuffled st f
      ++ destsAll hash library organized shuffled st rest

theorem process_one_ok {hash : List Nat → List Char}
    {library organized shuffled : Path}
    (hsep_org : sepJoin library organized) (hsep_shuf : sepJoin library shuffled)
    {st : RunState} {fname : Path} {st' : RunState}
    (hgoodf : goodLibB library fname = true)
    (hdbg : dbGood library st.db)
    (hstep : process_one hash [] library organized shuffled st fname = .ok st') :
    ∃ e r new,
      fsFind st.fs fname = some e ∧ e.isDir = false ∧
      st'.fs = new ++ st.fs ∧ offLib library new ∧
      dbGood library st'.db ∧
      Canon st'.fs st'.db (hash e.content) r ∧
      (∀ (h' : List Char) (r' : Row),
        Canon st.fs st.db h' r' → Canon st'.fs st'.db h' r') ∧
      st'.included = st.included
        ++ [dest_org library organized r, dest_shuf shuffled r] ∧
      path_exists st'.fs (dest_org library organized r) = true ∧
      (dirname (dest_org library organized r) = [] ∨
        path_exists st'.fs (dirname (dest_org library organized r)) = true) ∧
      path_exists st'.fs (dest_shuf shuffled r) = true ∧
      (dirname (dest_shuf shuffled r) = [] ∨
        path_exists st'.fs (dirname (dest_shuf shuffled r)) = true) := by
  simp only [process_one] at hstep
  split at hstep
  · exact absurd hstep (by simp)
  · rename_i row db2 hres
    obtain ⟨e, he, hdir, hf⟩ := resolve_row_some hres
    have hcanonA : Canon st.fs db2 (hash e.content) row := find_some_canon hf
    have hspec := find_fst_eq_spec st.fs (hash e.content)
        (if (find_library_files_by_size st.db e.content.length).isEmpty
          then st.db ++ [⟨fname, hash e.content, e.content.length, e.mtime⟩]
          else st.db)
    rw [hf] at hspec
    obtain ⟨hrmem, _, _⟩ := canonical_record_spec_some hspec.symm
    have hdb1g : dbGood library
        (if (find_library_files_by_size st.db e.content.length).isEmpty
          then st.db ++ [⟨fname, hash e.content, e.content.length, e.mtime⟩]
          else st.db) := by
      split
      · intro r hr
        rcases List.mem_append.mp hr with hr | hr
        · exact hdbg r hr
        · rw [List.mem_singleton] at hr
          subst hr
          exact hgoodf
      · exact hdbg
    have hrowg : goodLibB library row.path = true := hdb1g row hrmem
    obtain ⟨t, hpt, hnl⟩ := goodLibB_elim hrowg
    have hto : dest_org library organized row = path_join organized t :=
      dest_org_eq organized t hpt
    have hd1off : strPrefix (library ++ ['/'])
        (dest_org library organized row) = false := by
      rw [hto]; exact hsep_org t hnl
    obtain ⟨sname, hsname, hsnl⟩ := dest_shuf_noLead shuffled row
    have hd2off : strPrefix (library ++ ['/'])
        (dest_shuf shuffled row) = false := by
      rw [hsname]; exact hsep_shuf sname hsnl
    have hdb2sub : List.Sublist db2
        (if (find_library_files_by_size st.db e.content.length).isEmpty
          then st.db ++ [⟨fname, hash e.content, e.content.length, e.mtime⟩]
          else st.db) := by
      have hsub := find_snd_sublist st.fs (hash e.content)
        (if (find_library_files_by_size st.db e.content.length).isEmpty
          then st.db ++ [⟨fname, hash e.content, e.content.length, e.mtime⟩]
          else st.db)
      rw [hf] at hsub
      exact hsub
    split at hstep
    · exact absurd hstep (by simp)
    · rename_i fs1 b1 hcopy1
      split at hstep
      · exact absurd hstep (by simp)
      · rename_i fs2 b2 hcopy2
        injection hstep with hstep
        subst hstep
        obtain ⟨new1, b1', hc1eq, hn1, he1, hdp1⟩ :=
          copy_file_ok row.path (dest_org library organized row) hcanonA.2
        rw [hcopy1] at hc1eq
        injection hc1eq with hc1eq
        obtain ⟨hfs1, hb1⟩ := Prod.mk.inj hc1eq
        subst hfs1
        obtain ⟨new2, b2', hc2eq, hn2, he2, hdp2⟩ :=
          copy_file_ok row.path (dest_shuf shuffled row)
            (path_exists_mono new1 hcanonA.2)
        rw [hcopy2] at hc2eq
        injection hc2eq with hc2eq
        obtain ⟨hfs2, hb2⟩ := Prod.mk.inj hc2eq
        subst hfs2
        have hmono : ∀ p, path_exists st.fs p = true →
            path_exists (new2 ++ (new1 ++ st.fs)) p = true :=
          fun p hp => path_exists_mono new2 (path_exists_mono new1 hp)
        refine ⟨e, row, new2 ++ new1, he, hdir, ?_, ?_, ?_, ?_, ?_, rfl,
          path_exists_mono new2 he1, ?_, he2, hdp2⟩
        · show new2 ++ (new1 ++ st.fs) = (new2 ++ new1) ++ st.fs
          rw [List.append_assoc]
        · intro x hx
          rcases List.mem_append.mp hx with hx | hx
          · rcases hn2 x hx with hp | hp <;> rw [hp]
            · exact hd2off
            · exact offlib_dirname hd2off
          · rcases hn1 x hx with hp | hp <;> rw [hp]
            · exact hd1off
            · exact offlib_dirname hd1off
        · intro r hr
          exact hdb1g r (hdb2sub.subset hr)
        · exact canon_mono_fs hcanonA hmono
        · intro h' r' hc'
          have hshape1 : dbShape
              (if (find_library_files_by_size st.db e.content.length).isEmpty
                then st.db ++ [⟨fname, hash e.content, e.content.length, e.mtime⟩]
                else st.db) h' r' := by
            split
            · exact dbShape_append hc'.1 _
            · exact hc'.1
          have hshape2 := dbShape_find_pres st.fs (hash e.content) hshape1 hc'.2
          have hdb2eq : (find_library_file_by_hash st.fs (hash e.content)
              (if (find_library_files_by_size st.db e.content.length).isEmpty
                then st.db ++ [⟨fname, hash e.content, e.content.length, e.mtime⟩]
                else st.db)).2 = db2 := by
            rw [hf]
          rw [hdb2eq] at hshape2
          exact ⟨hshape2, hmono _ hc'.2⟩
        · rcases hdp1 with hd | hd
          · exact Or.inl hd
          · exact Or.inr (path_exists_mono new2 hd)

/-! ## Postcondition of the whole first run (C1) -/

theorem goodLibB_pref {library f : Path} (h : goodLibB library f = true) :
    strPrefix (library ++ ['/']) f = true := by
  have h' : strPrefix (library ++ ['/']) f = true ∧
      noLeadSlash (f.drop (library.length + 1)) = true := by
    simpa [goodLibB] using h
  exact h'.1

theorem run_loop_post {hash : List Nat → List Char}
    {library organized shuffled : Path}
    (hsep_org : sepJoin library organized)
    (hsep_shuf : sepJoin library shuffled) :
    ∀ (fnames : List Path) (st0 st1 : RunState),
    run_loop hash [] library organized shuffled fnames st0 = .ok st1 →
    (∀ f ∈ fnames, goodLibB library f = true) →
    dbGood library st0.db →
    (∃ new, st1.fs = new ++ st0.fs ∧ offLib library new) ∧
    dbGood library st1.db ∧
    (∀ (h' : List Char) (r' : Row),
      Canon st0.fs st0.db h' r' → Canon st1.fs st1.db h' r') ∧
    st1.included = st0.included
      ++ destsAll hash library organized shuffled st1 fnames ∧
    (∀ f ∈ fnames, SatOne hash library organized shuffled st1 f) := by
  intro fnames
  induction fnames with
  | nil =>
    intro st0 st1 hrun hgood hdbg
    rw [run_loop] at hrun
    injection hrun with hrun
    subst hrun
    refine ⟨⟨[], rfl, ?_⟩, hdbg, fun h' r' hc => hc, ?_, ?_⟩
    · intro x hx; simp at hx
    · rw [destsAll, List.append_nil]
    · intro f hf; simp at hf
  | cons f rest ih =>
    intro st0 st1 hrun hgood hdbg
    rw [run_loop] at hrun
    split at hrun
    · exact absurd hrun (by simp)
    · rename_i stM hstep
      obtain ⟨e, r, new1, hfind, hdir, hfs, hoff, hdbgM, hcanonM, hpres, hinc,
        hex1, hdp1, hex2, hdp2⟩ :=
        process_one_ok hsep_org hsep_shuf (hgood f (List.mem_cons_self _ _))
          hdbg hstep
      obtain ⟨⟨newR, hfsR, hoffR⟩, hdbg1, hpresR, hincR, hsatR⟩ :=
        ih stM st1 hrun (fun x hx => hgood x (List.mem_cons_of_mem _ hx)) hdbgM
      have hmonoR : ∀ p, path_exists stM.fs p = true →
          path_exists st1.fs p = true := by
        intro p hp
        rw [hfsR]
        exact path_exists_mono _ hp
      have hcanon1 : Canon st1.fs st1.db (hash e.content) r :=
        hpresR _ _ hcanonM
      have hprefix_f : strPrefix (library ++ ['/']) f = true :=
        goodLibB_pref (hgood f (List.mem_cons_self _ _))
      have hfindM : fsFind stM.fs f = some e := by
        rw [hfs, fsFind_extend hoff hprefix_f]
        exact hfind
      have hfind1 : fsFind st1.fs f = some e := by
        rw [hfsR, fsFind_extend hoffR hprefix_f]
        exact hfindM
      refine ⟨?_, hdbg1, ?_, ?_, ?_⟩
      · refine ⟨newR ++ new1, ?_, ?_⟩
        · rw [hfsR, hfs, List.append_assoc]
        · intro x hx
          rcases List.mem_append.mp hx with hx | hx
          · exact hoffR x hx
          · exact hoff x hx
      · exact fun h' r' hc => hpresR _ _ (hpres _ _ hc)
      · have hdf : dests_of hash library organized shuffled st1 f
            = [dest_org library organized r, dest_shuf shuffled r] := by
          simp only [dests_of, hfind1, canonical_of_canon hcanon1]
        rw [hincR, hinc, destsAll, hdf, List.append_assoc]
      · intro x hx
        rcases List.mem_cons.mp hx with rfl | hx
        · refine ⟨e, r, hfind1, hdir, hcanon1, hmonoR _ hex1, ?_,
            hmonoR _ hex2, ?_⟩
          · rcases hdp1 with hd | hd
            · exact Or.inl hd
            · exact Or.inr (hmonoR _ hd)
          · rcases hdp2 with hd | hd
            · exact Or.inl hd
            · exact Or.inr (hmonoR _ hd)
        · exact hsatR x hx

/-! ## Replaying the loop over an already-reconciled state (C1) -/

theorem run_loop_replay {hash : List Nat → List Char}
    {library organized shuffled : Path} :
    ∀ (fnames : List Path) (bdb : List Row) (binc : List Path) (bcop : Nat)
      (st1 : RunState),
    (∀ (h' : List Char) (r' : Row),
      Canon st1.fs st1.db h' r' → Canon st1.fs bdb h' r') →
    (∀ f ∈ fnames, SatOne hash library organized shuffled st1 f) →
    ∃ db2, run_loop hash [] library organized shuffled fnames
        ⟨st1.fs, bdb, binc, bcop⟩
      = .ok ⟨st1.fs, db2,
             binc ++ destsAll hash library organized shuffled st1 fnames,
             bcop⟩ := by
  intro fnames
  induction fnames with
  | nil =>
    intro bdb binc bcop st1 htrans hsat
    exact ⟨bdb, by rw [run_loop, destsAll, List.append_nil]⟩
  | cons f rest ih =>
    intro bdb binc bcop st1 htrans hsat
    obtain ⟨e, r, hfind, hdir, hcanon, hex1, hdp1, hex2, hdp2⟩ :=
      hsat f (List.mem_cons_self _ _)
    have hcanonB : Canon st1.fs bdb (hash e.content) r := htrans _ _ hcanon
    have hcanonB1 : Canon st1.fs
        (if (find_library_files_by_size bdb e.content.length).isEmpty
          then bdb ++ [⟨f, hash e.content, e.content.length, e.mtime⟩]
          else bdb) (hash e.content) r := by
      constructor
      · split
        · exact dbShape_append hcanonB.1 _
        · exact hcanonB.1
      · exact hcanonB.2
    have hres : resolve_row hash st1.fs bdb f
        = some (r, (if (find_library_files_by_size bdb e.content.length).isEmpty
            then bdb ++ [⟨f, hash e.content, e.content.length, e.mtime⟩]
            else bdb)) := by
      simp only [resolve_row, hfind, hdir, Bool.false_eq_true, if_false,
        find_eq_of_canon hcanonB1]
    have hstep : process_one hash [] library organized shuffled
        ⟨st1.fs, bdb, binc, bcop⟩ f
        = .ok ⟨st1.fs,
            (if (find_library_files_by_size bdb e.content.length).isEmpty
              then bdb ++ [⟨f, hash e.content, e.content.length, e.mtime⟩]
              else bdb),
            binc ++ [dest_org library organized r, dest_shuf shuffled r],
            bcop⟩ := by
      simp only [process_one, hres,
        copy_file_skip_ready [] st1.fs r.path _ hex1 hdp1,
        copy_file_skip_ready [] st1.fs r.path _ hex2 hdp2,
        Bool.cond_false, Nat.add_zero]
    have htrans' : ∀ (h' : List Char) (r' : Row),
        Canon st1.fs st1.db h' r' → Canon st1.fs
          (if (find_library_files_by_size bdb e.content.length).isEmpty
            then bdb ++ [⟨f, hash e.content, e.content.length, e.mtime⟩]
            else bdb) h' r' := by
      intro h' r' hc
      have hb := htrans _ _ hc
      constructor
      · split
        · exact dbShape_append hb.1 _
        · exact hb.1
      · exact hb.2
    obtain ⟨db2, hrest⟩ := ih
      (if (find_library_files_by_size bdb e.content.length).isEmpty
        then bdb ++ [⟨f, hash e.content, e.content.length, e.mtime⟩]
        else bdb)
      (binc ++ [dest_org library organized r, dest_shuf shuffled r]) bcop st1
      htrans' (fun x hx => hsat x (List.mem_cons_of_mem _ hx))
    refine ⟨db2, ?_⟩
    have hdf : dests_of hash library organized shuffled st1 f
        = [dest_org library organized r, dest_shuf shuffled r] := by
      simp only [dests_of, hfind, canonical_of_canon hcanon]
    have hireq : (binc ++ [dest_org library organized r, dest_shuf shuffled r])
        ++ destsAll hash library organized shuffled st1 rest
        = binc ++ destsAll hash library organized shuffled st1 (f :: rest) := by
      rw [destsAll, hdf, List.append_assoc]
    simp only [run_loop, hstep]
    rw [hrest, hireq]

/-! ## C1: idempotence of reconciliation -/

theorem copy_file_post {failing : List Path} {fs : FS} {inp out : Path}
    {fs' : FS} {b : Bool}
    (h : copy_file failing fs inp out = .ok (fs', b)) :
    path_exists fs' out = true ∧
    (∀ p, path_exists fs p = true → path_exists fs' p = true) := by
  simp only [copy_file] at h
  split at h
  · rename_i hex
    injection h with h
    obtain ⟨h1, _⟩ := Prod.mk.inj h
    subst h1
    exact ⟨hex, fun p hp => path_exists_makedirs_mono _ hp⟩
  · split at h
    · exact absurd h (by simp)
    · split at h
      · rename_i e hfi
        injection h with h
        obtain ⟨h1, _⟩ := Prod.mk.inj h
        subst h1
        refine ⟨by simp [path_exists, fsFind], ?_⟩
        intro p hp
        exact path_exists_mono [⟨out, false, e.content, e.mtime⟩]
          (path_exists_makedirs_mono _ hp)
      · exact absurd h (by simp)

/-- C1: reconciliation is idempotent.  (i) A computed destination that already
exists on disk is skipped — the copy flag stays `false` and the filesystem
only gains the `makedirs` directory entry.  (ii) Every destination pair a
processed file resolves to is recorded in the returned set, copied or not, and
exists on disk afterwards.  (iii) After a completed run, running the whole
reconciliation again over the unchanged library and rule lines performs zero
copy operations, leaves the filesystem unchanged, and returns exactly the same
destination-path set.  The hypotheses state the operating premise that the
destination roots lie outside the library tree and that library paths are
normalized (`library/…` with no doubled slash). -/
theorem C1_reconciliation_idempotent (hash : List Nat → List Char)
    (library organized shuffled : Path) (lines : List Path)
    (fs0 : FS) (db0 : List Row) (st1 : RunState)
    (hgoodfs : ∀ e ∈ fs0, strPrefix (library ++ ['/']) e.path = true →
      goodLibB library e.path = true)
    (hgooddb : dbGood library db0)
    (horg0 : strPrefix (library ++ ['/']) organized = false)
    (hshuf0 : strPrefix (library ++ ['/']) shuffled = false)
    (hsep_org : sepJoin library organized)
    (hsep_shuf : sepJoin library shuffled)
    (h1 : main_run hash [] library organized shuffled lines false fs0 db0
      = .ok st1) :
    (∀ (failing : List Path) (fs : FS) (inp out : Path),
        path_exists fs out = true →
        copy_file failing fs inp out = .ok (makedirs fs (dirname out), false)) ∧
    (∀ (st : RunState) (fname : Path) (st' : RunState),
        process_one hash [] library organized shuffled st fname = .ok st' →
        ∃ out1 out2, st'.included = st.included ++ [out1, out2] ∧
          path_exists st'.fs out1 = true ∧ path_exists st'.fs out2 = true) ∧
    (∃ db2, main_run hash [] library organized shuffled lines false
        st1.fs st1.db = .ok ⟨st1.fs, db2, st1.included, 0⟩) := by
  refine ⟨copy_file_skip, ?_, ?_⟩
  · -- (ii) recording of every computed destination
    intro st fname st' hp
    simp only [process_one] at hp
    split at hp
    · exact absurd hp (by simp)
    · rename_i row db2 hres
      split at hp
      · exact absurd hp (by simp)
      · rename_i fs1 b1 hcopy1
        split at hp
        · exact absurd hp (by simp)
        · rename_i fs2 b2 hcopy2
          injection hp with hp
          subst hp
          obtain ⟨hex1, _⟩ := copy_file_post hcopy1
          obtain ⟨hex2, hmono2⟩ := copy_file_post hcopy2
          exact ⟨dest_org library organized row, dest_shuf shuffled row,
            rfl, hmono2 _ hex1, hex2⟩
  · -- (iii) the second run
    -- unpack the first run
    have hloop1 : run_loop hash [] library organized shuffled
        (gen_input_files
          (load_filters (makedirs (makedirs fs0 organized) shuffled) library
            lines)
          (makedirs (makedirs fs0 organized) shuffled) library)
        ⟨makedirs (makedirs fs0 organized) shuffled, db0, [], 0⟩ = .ok st1 := by
      simp only [main_run] at h1
      split at h1
      · exact absurd h1 (by simp)
      · rename_i st hst
        simp only [Bool.false_eq_true, if_false] at h1
        injection h1 with h1
        rw [← h1]
        exact hst
    -- the post-makedirs start state only adds off-library entries to `fs0`
    have hfsA : ∃ dnew, makedirs (makedirs fs0 organized) shuffled
        = dnew ++ fs0 ∧ offLib library dnew := by
      rcases makedirs_shape fs0 organized with hm1 | hm1 <;>
        rcases makedirs_shape (makedirs fs0 organized) shuffled with hm2 | hm2 <;>
          rw [hm2, hm1]
      · exact ⟨[], rfl, by intro x hx; simp at hx⟩
      · refine ⟨[⟨shuffled, true, [], 0⟩], rfl, ?_⟩
        intro x hx
        rw [List.mem_singleton] at hx
        subst hx
        exact hshuf0
      · refine ⟨[⟨organized, true, [], 0⟩], rfl, ?_⟩
        intro x hx
        rw [List.mem_singleton] at hx
        subst hx
        exact horg0
      · refine ⟨[⟨shuffled, true, [], 0⟩, ⟨organized, true, [], 0⟩], rfl, ?_⟩
        intro x hx
        rcases List.mem_cons.mp hx with rfl | hx
        · exact hshuf0
        · rw [List.mem_singleton] at hx
          subst hx
          exact horg0
    obtain ⟨dnew, hdnew, hdoff⟩ := hfsA
    -- the walked-and-filtered names are good library paths
    have hfgood : ∀ f ∈ gen_input_files
        (load_filters (makedirs (makedirs fs0 organized) shuffled) library lines)
        (makedirs (makedirs fs0 organized) shuffled) library,
        goodLibB library f = true := by
      intro f hf
      have hfw : f ∈ walk (makedirs (makedirs fs0 organized) shuffled) library :=
        List.mem_of_mem_filter hf
      obtain ⟨e, hemem, hep, hepre⟩ := walk_mem_entry hfw
      rw [hdnew] at hemem
      rcases List.mem_append.mp hemem with hin | hin
      · rw [hdoff e hin] at hepre
        exact absurd hepre (by simp)
      · rw [← hep]
        exact hgoodfs e hin hepre
    -- postcondition of run 1
    obtain ⟨⟨new, hnew, hoff⟩, hdbg1, hpres1, hinc1, hsat1⟩ :=
      run_loop_post hsep_org hsep_shuf _ _ _ hloop1 hfgood hgooddb
    -- run 2's makedirs do nothing
    have horg_noop : makedirs st1.fs organized = st1.fs := by
      apply makedirs_noop
      by_cases h0 : organized = []
      · exact Or.inl h0
      · right
        have hA : path_exists (makedirs fs0 organized) organized = true :=
          path_exists_makedirs_self fs0 organized h0
        have hB : path_exists (makedirs (makedirs fs0 organized) shuffled)
            organized = true := path_exists_makedirs_mono _ hA
        rw [hnew]
        exact path_exists_mono _ hB
    have hshuf_noop : makedirs st1.fs shuffled = st1.fs := by
      apply makedirs_noop
      by_cases h0 : shuffled = []
      · exact Or.inl h0
      · right
        have hB : path_exists (makedirs (makedirs fs0 organized) shuffled)
            shuffled = true :=
          path_exists_makedirs_self (makedirs fs0 organized) shuffled h0
        rw [hnew]
        exact path_exists_mono _ hB
    -- run 2's walk and filters coincide with run 1's
    have hfn2 : gen_input_files (load_filters st1.fs library lines) st1.fs library
        = gen_input_files
            (load_filters (makedirs (makedirs fs0 organized) shuffled) library
              lines)
            (makedirs (makedirs fs0 organized) shuffled) library := by
      rw [hnew, gen_input_files_extend lines hoff]
    -- replay the loop
    obtain ⟨db2, hrun2⟩ := run_loop_replay _ st1.db [] 0 st1
      (fun h' r' hc => hc) hsat1
    refine ⟨db2, ?_⟩
    simp only [main_run, horg_noop, hshuf_noop, hfn2, hrun2]
    rw [List.nil_append] at hrun2
    simp only [hrun2, Bool.false_eq_true, if_false]
    rw [hinc1, List.nil_append]

/-- A one-character destination root distinct from the library's first
character (and not a slash) never produces destinations inside the library
tree. -/
theorem sepJoin_single {lc rc : Char} (hne : lc ≠ rc) (hrc : rc ≠ '/')
    (ltail : Path) : sepJoin (lc :: ltail) [rc] := by
  intro s hs
  have hjoin : ∃ t, path_join [rc] s = rc :: t := by
    cases s with
    | nil => exact ⟨['/'], by simp [path_join, hrc]⟩
    | cons c cs =>
      by_cases hc : c = '/'
      · subst hc
        rw [show noLeadSlash ('/' :: cs) = false from rfl] at hs
        exact absurd hs (by simp)
      · exact ⟨'/' :: c :: cs, by simp [path_join, hrc, hc]⟩
  obtain ⟨t, ht⟩ := hjoin
  rw [ht]
  show strPrefix (lc :: (ltail ++ ['/'])) (rc :: t) = false
  simp [strPrefix, hne]

/-- The library of the concrete C1 run. -/
def c1Fs0 : FS := [⟨"l/a.mp3".data, false, [1], 5⟩]

/-- The filesystem after the concrete first run. -/
def c1Fs1 : FS :=
  [⟨"s/a - aabbccdd.mp3".data, false, [1], 5⟩,
   ⟨"o/a.mp3".data, false, [1], 5⟩,
   ⟨"s".data, true, [], 0⟩,
   ⟨"o".data, true, [], 0⟩,
   ⟨"l/a.mp3".data, false, [1], 5⟩]

/-- The index after the concrete first run. -/
def c1Db1 : List Row := [⟨"l/a.mp3".data, "aabbccddee".data, 1, 5⟩]

/-- The destination set of the concrete first run. -/
def c1Inc1 : List Path := ["o/a.mp3".data, "s/a - aabbccdd.mp3".data]

/-- Witness for C1: re-running the concrete reconciliation over its own
result performs zero copies, leaves the filesystem untouched, and recovers
the same destination set. -/
theorem C1_reconciliation_idempotent_witness :
    (main_run (fun c => if c = [1] then "aabbccddee".data else "ffgghhiijj".data)
        [] "l".data "o".data "s".data ["*".data] false c1Fs1 c1Db1).toOption.map
        (fun st => (st.copies, st.fs, st.included))
      = some (0, c1Fs1, c1Inc1) := by
  have h := C1_reconciliation_idempotent
      (fun c => if c = [1] then "aabbccddee".data else "ffgghhiijj".data)
      "l".data "o".data "s".data ["*".data] c1Fs0 []
      ⟨c1Fs1, c1Db1, c1Inc1, 2⟩
      (by decide) (by intro r hr; simp at hr) (by decide) (by decide)
      (sepJoin_single (by decide) (by decide) [])
      (sepJoin_single (by decide) (by decide) [])
      (by decide)
  obtain ⟨db2, h2⟩ := h.2.2
  have h2' : main_run
      (fun c => if c = [1] then "aabbccddee".data else "ffgghhiijj".data)
      [] "l".data "o".data "s".data ["*".data] false c1Fs1 c1Db1
      = .ok ⟨c1Fs1, db2, c1Inc1, 0⟩ := h2
  rw [h2']
  rfl

end MusicDrive
